import Mathlib

/-!
# CHIP-8 interpreter (`chip8.h`): shallow embedding and verified properties

The machine state of `chip8.h` is embedded as a record of natural numbers and
total maps.  Machine integers are natural numbers; every store into a `uint8_t`
or `uint16_t` location is reduced modulo `2^8` or `2^16` where the C expression
can leave that range.  An access outside the 4096-byte `memory` allocation or
outside the 16-entry `keys` array is undefined behaviour in C and is modelled by
the result `none`.
-/

namespace Chip8

/-! ## Constants (`chip8.h`, lines 7-12) -/

def MEMORY_CAPACITY : Nat := 4096
def DISPLAY_WIDTH : Nat := 64
def DISPLAY_HEIGHT : Nat := 32
def PROGRAM_BUFFER : Nat := 0x200
def DISPLAY_BUFFER : Nat := 0xF00
def STACK_BUFFER : Nat := 0xEA0

/-! ## Machine state (`struct Chip8State`) -/

/-- The record `Chip8State`.  `screen` is the pointer `&memory[0xF00]`, an alias
into `memory`, so it is not a field of its own: `screen[k]` is
`memory[DISPLAY_BUFFER + k]`. -/
structure Chip8State where
  V : Nat → Nat
  memory : Nat → Nat
  keys : Nat → Nat
  I : Nat
  SP : Nat
  PC : Nat
  delay : Nat
  sound : Nat
  awaitingKey : Nat

/-- The ranges of the C types: `uint8_t` cells hold values below 256 and
`uint16_t` cells values below 65536. -/
structure WF (s : Chip8State) : Prop where
  hV : ∀ k, s.V k < 256
  hmem : ∀ a, s.memory a < 256
  hkeys : ∀ k, s.keys k < 256
  hI : s.I < 65536
  hSP : s.SP < 65536
  hPC : s.PC < 65536
  hdelay : s.delay < 256
  hsound : s.sound < 256
  hawait : s.awaitingKey < 256

/-- Read of `state->memory[a]`; outside the allocation the read is undefined. -/
def readMem (s : Chip8State) (a : Nat) : Option Nat :=
  if a < MEMORY_CAPACITY then some (s.memory a) else none

/-- Store `state->memory[a] = v`; outside the allocation the store is undefined. -/
def writeMem (s : Chip8State) (a v : Nat) : Option Chip8State :=
  if a < MEMORY_CAPACITY then
    some { s with memory := fun b => if b = a then v else s.memory b }
  else none

/-- Store `state->V[x] = v`. -/
def setV (s : Chip8State) (x v : Nat) : Chip8State :=
  { s with V := fun k => if k = x then v else s.V k }

/-- Read of `state->keys[k]`; the array has 16 entries. -/
def readKey (s : Chip8State) (k : Nat) : Option Nat :=
  if k < 0x10 then some (s.keys k) else none

/-! ## Initialisation -/

/-- The 80 bytes written by `InsertFontIntoMemory`, in address order. -/
def fontBytes : List Nat :=
  [ 0b11110000, 0b10010000, 0b10010000, 0b10010000, 0b11110000,  -- 0
    0b00100000, 0b01100000, 0b00100000, 0b00100000, 0b01110000,  -- 1
    0b11110000, 0b00010000, 0b11110000, 0b10000000, 0b11110000,  -- 2
    0b11110000, 0b00010000, 0b11110000, 0b00010000, 0b11110000,  -- 3
    0b10010000, 0b10010000, 0b11110000, 0b00010000, 0b00010000,  -- 4
    0b11110000, 0b10000000, 0b11110000, 0b00010000, 0b11110000,  -- 5
    0b11110000, 0b10000000, 0b11110000, 0b10010000, 0b11110000,  -- 6
    0b11110000, 0b00010000, 0b00100000, 0b01000000, 0b01000000,  -- 7
    0b11110000, 0b10010000, 0b11110000, 0b10010000, 0b11110000,  -- 8
    0b11110000, 0b10010000, 0b11110000, 0b00010000, 0b00010000,  -- 9
    0b11110000, 0b10010000, 0b11110000, 0b10010000, 0b10010000,  -- a
    0b11100000, 0b10010000, 0b11100000, 0b10010000, 0b11100000,  -- b
    0b11110000, 0b10000000, 0b10000000, 0b10000000, 0b11110000,  -- c
    0b11100000, 0b10010000, 0b10010000, 0b10010000, 0b11100000,  -- d
    0b11110000, 0b10000000, 0b11110000, 0b10000000, 0b11110000,  -- e
    0b11110000, 0b10000000, 0b11110000, 0b10000000, 0b10000000 ] -- f

/-- `InsertFontIntoMemory`: the first 80 bytes of memory receive the glyphs. -/
def InsertFontIntoMemory (s : Chip8State) : Chip8State :=
  { s with memory := fun a => if a < 0x50 then fontBytes.getD a 0 else s.memory a }

/-- `InitChip8`, for the case that both allocations succeed: `calloc` zeroes
every field and the whole memory, then the pointers and the font are set. -/
def InitChip8 : Chip8State :=
  InsertFontIntoMemory
    { V := fun _ => 0
      memory := fun _ => 0
      keys := fun _ => 0
      I := 0
      SP := STACK_BUFFER
      PC := PROGRAM_BUFFER
      delay := 0
      sound := 0
      awaitingKey := 0 }

/-- The loader of `main.c`: `fread(memory + 0x200, fsize, 1, file)` copies the
program image verbatim to address `0x200`. -/
def loadProgram (s : Chip8State) (image : List Nat) : Chip8State :=
  { s with memory := fun a =>
      if PROGRAM_BUFFER ≤ a ∧ a < PROGRAM_BUFFER + image.length then
        image.getD (a - PROGRAM_BUFFER) 0
      else s.memory a }

/-! ## Opcode groups -/

/-- `Op0`: clear screen, return, and the unimplemented `SYS` call.
`instr1` is the byte `instr[1]`. -/
def Op0 (s : Chip8State) (instr1 : Nat) : Option Chip8State :=
  if instr1 = 0xe0 then
    -- memset(state->screen, 0, 256)
    some { s with
      memory := fun a =>
        if DISPLAY_BUFFER ≤ a ∧ a < DISPLAY_BUFFER + 256 then 0 else s.memory a
      PC := (s.PC + 2) % 65536 }
  else if instr1 = 0xee then do
    let hi ← readMem s s.SP
    let lo ← readMem s (s.SP + 1)
    let target := ((hi <<< 8) ||| lo) % 65536
    some { s with SP := (s.SP + 2) % 65536, PC := target }
  else
    some s

/-- `Op8`: the register-register group.  The two stores of each case are
performed in the order of the source, so the second sees the first. -/
def Op8 (s : Chip8State) (instr0 instr1 : Nat) : Chip8State :=
  let X := instr0 &&& 0x0f
  let Y := (instr1 &&& 0xf0) >>> 4
  match instr1 &&& 0x0f with
  | 0x0 => setV s X (s.V Y)
  | 0x1 => setV s X (s.V X ||| s.V Y)
  | 0x2 => setV s X (s.V X &&& s.V Y)
  | 0x3 => setV s X (s.V X ^^^ s.V Y)
  | 0x4 =>
    let result := (s.V X + s.V Y) % 65536
    let s1 := setV s 0xF (if result > 0xFF then 1 else 0)
    setV s1 X (result &&& 0xFF)
  | 0x5 =>
    let s1 := setV s 0xF (if s.V X > s.V Y then 1 else 0)
    setV s1 X (((s1.V X : Int) - (s1.V Y : Int)) % 256).toNat
  | 0x6 =>
    let s1 := setV s 0xF (s.V X &&& 0b1)
    setV s1 X ((s1.V X >>> 1) &&& 0x7F)
  | 0x7 =>
    let s1 := setV s 0xF (if s.V Y > s.V X then 1 else 0)
    setV s1 X (((s1.V Y : Int) - (s1.V X : Int)) % 256).toNat
  | 0xe =>
    let s1 := setV s 0xF (s.V X &&& 0b10000000)
    setV s1 X ((s1.V X <<< 1) &&& 0xFE)
  | _ => s

/-- Body of the inner loop of `OpD`: one sprite bit at row `i`, column `j`.
`~destmask` is an `int`; since `destbyte` is below 256 only its low eight bits
take part in `destbyte & ~destmask`, which is `destbyte & (0xFF ^ destmask)`. -/
def OpD_bit (spr_y i j spritebit : Nat) (s : Chip8State) : Option Chip8State := do
  let sprite ← readMem s (s.I + i)
  let jover8 := j / 8
  let jmod8 := j % 8
  let srcbit := (sprite >>> spritebit) &&& 0x1
  if srcbit ≠ 0 then
    let addr := DISPLAY_BUFFER + ((i + spr_y) * (64 / 8) + jover8)
    let destbyte ← readMem s addr
    let destmask := 0x80 >>> jmod8
    let destbit := destbyte &&& destmask
    let srcbit := (srcbit <<< (7 - jmod8)) % 256
    let s1 := if srcbit &&& destbit ≠ 0 then setV s 0xF 1 else s
    let destbit := destbit ^^^ srcbit
    let destbyte := ((destbyte &&& (0xFF ^^^ destmask)) ||| destbit) % 256
    writeMem s1 addr destbyte
  else
    some s

/-- The inner loop `for (j = spr_x; j < spr_x + 8 && j < 64; j++)` of `OpD`,
entered at column `j`.  The first argument bounds the number of iterations; the
result is `none` if the bound is used up before the loop condition fails.
`spritebit` is only read while it is at least 0. -/
def OpD_cols (spr_x spr_y i : Nat) : Nat → Nat → Nat → Chip8State → Option Chip8State
  | 0, j, _, s => if j < spr_x + 8 ∧ j < 64 then none else some s
  | fuel + 1, j, spritebit, s =>
    if j < spr_x + 8 ∧ j < 64 then
      (OpD_bit spr_y i j spritebit s).bind
        (OpD_cols spr_x spr_y i fuel (j + 1) (spritebit - 1))
    else some s

/-- The outer loop `for (i = 0; i < spr_h; i++)` of `OpD`, entered at row `i`. -/
def OpD_rows (spr_x spr_y spr_h : Nat) : Nat → Nat → Chip8State → Option Chip8State
  | 0, i, s => if i < spr_h then none else some s
  | fuel + 1, i, s =>
    if i < spr_h then
      (OpD_cols spr_x spr_y i 8 spr_x 7 s).bind
        (OpD_rows spr_x spr_y spr_h fuel (i + 1))
    else some s

/-- `OpD`: draw the `spr_h`-row sprite at `memory[I]` at `(spr_x, spr_y)`. -/
def OpD (s : Chip8State) (spr_x spr_y spr_h : Nat) : Option Chip8State :=
  OpD_rows spr_x spr_y spr_h spr_h 0 (setV s 0xF 0)

/-- `OpE`: the two key-skip opcodes; the group always adds 2 to `PC`. -/
def OpE (s : Chip8State) (instr0 instr1 : Nat) : Option Chip8State :=
  let X := instr0 &&& 0x0f
  if instr1 = 0x9e then do
    let key ← readKey s (s.V X)
    let s1 := if key ≠ 0 then { s with PC := (s.PC + 2) % 65536 } else s
    some { s1 with PC := (s1.PC + 2) % 65536 }
  else if instr1 = 0xa1 then do
    let key ← readKey s (s.V X)
    let s1 := if key = 0 then { s with PC := (s.PC + 2) % 65536 } else s
    some { s1 with PC := (s1.PC + 2) % 65536 }
  else
    some { s with PC := (s.PC + 2) % 65536 }

/-- The key scan `for (k = 0; k < 0x10; ++k) if (state->keys[k]) break;` of
`FX0A`, entered at `k`; the result is the value of `k` after the loop. -/
def scanKeys (s : Chip8State) : Nat → Nat → Option Nat
  | 0, k => if k < 0x10 then none else some k
  | fuel + 1, k =>
    if k < 0x10 then
      if s.keys k ≠ 0 then some k else scanKeys s fuel (k + 1)
    else some k

/-- The loop `for (v = 0; v <= X; ++v) memory[I + v] = V[v]` of `FX55`. -/
def regDump (X : Nat) : Nat → Nat → Chip8State → Option Chip8State
  | 0, v, s => if v ≤ X then none else some s
  | fuel + 1, v, s =>
    if v ≤ X then
      (writeMem s (s.I + v) (s.V v)).bind (regDump X fuel (v + 1))
    else some s

/-- The loop `for (v = 0; v <= X; ++v) V[v] = memory[I + v]` of `FX65`. -/
def regLoad (X : Nat) : Nat → Nat → Chip8State → Option Chip8State
  | 0, v, s => if v ≤ X then none else some s
  | fuel + 1, v, s =>
    if v ≤ X then
      (readMem s (s.I + v)).bind fun b => regLoad X fuel (v + 1) (setV s v b)
    else some s

/-- `OpF`: timers, key wait, index register, BCD, register dump and load.
The diagnostic `printf` of `FX0A` does not touch the state. -/
def OpF (s : Chip8State) (instr0 instr1 : Nat) : Option Chip8State :=
  let X := instr0 &&& 0x0f
  if instr1 = 0x07 then
    some { setV s X s.delay with PC := (s.PC + 2) % 65536 }
  else if instr1 = 0x0a then
    if s.awaitingKey = 0 then
      some { s with awaitingKey := 1 }
    else do
      let k ← scanKeys s 17 0
      if k < 0x10 then
        some { setV s X k with awaitingKey := 0, PC := (s.PC + 2) % 65536 }
      else some s
  else if instr1 = 0x15 then
    some { s with delay := s.V X, PC := (s.PC + 2) % 65536 }
  else if instr1 = 0x18 then
    some { s with sound := s.V X, PC := (s.PC + 2) % 65536 }
  else if instr1 = 0x1e then
    some { s with I := (s.I + s.V X) % 65536, PC := (s.PC + 2) % 65536 }
  else if instr1 = 0x29 then
    some { s with I := (s.V X * 5) % 65536, PC := (s.PC + 2) % 65536 }
  else if instr1 = 0x33 then do
    let value := s.V X
    let ones := value % 10
    let value := value / 10
    let tens := value % 10
    let hundreds := value / 10
    let s1 ← writeMem s s.I hundreds
    let s2 ← writeMem s1 (s1.I + 1) tens
    let s3 ← writeMem s2 (s2.I + 2) ones
    some { s3 with PC := (s3.PC + 2) % 65536 }
  else if instr1 = 0x55 then do
    let s1 ← regDump X (X + 1) 0 s
    some { s1 with I := (s1.I + (X + 1)) % 65536, PC := (s1.PC + 2) % 65536 }
  else if instr1 = 0x65 then do
    let s1 ← regLoad X (X + 1) 0 s
    some { s1 with I := (s1.I + (X + 1)) % 65536, PC := (s1.PC + 2) % 65536 }
  else
    some s

/-! ## The step function -/

/-- The timer update at the head of `EmulateChip8`. -/
def tickTimers (s : Chip8State) : Chip8State :=
  { s with
    delay := if s.delay ≠ 0 then s.delay - 1 else s.delay
    sound := if s.sound ≠ 0 then s.sound - 1 else s.sound }

/-- `EmulateChip8`: one fetch-decode-execute cycle.  `rnd` is the value that
`rand()` returns in this cycle (only `CXNN` reads it); the `printf` of the
self-jump diagnostic does not touch the state. -/
def EmulateChip8 (rnd : Nat) (state : Chip8State) : Option Chip8State := do
  let s := tickTimers state
  let instr0 ← readMem s s.PC
  let instr1 ← readMem s (s.PC + 1)
  let highNibble := (instr0 &&& 0xF0) >>> 4
  let X := instr0 &&& 0x0F
  let Y := (instr1 &&& 0xF0) >>> 4
  let N := instr1 &&& 0x0F
  let NN := instr1
  let NNN := (((instr0 &&& 0x0F) <<< 8) ||| instr1) &&& 0x0FFF
  match highNibble with
  | 0x0 => Op0 s instr1
  | 0x1 => some { s with PC := NNN }
  | 0x2 => do
    let s1 := { s with SP := (s.SP + 65536 - 2) % 65536 }
    let s2 ← writeMem s1 s1.SP ((((s1.PC + 2) &&& 0xFF00) >>> 8) % 256)
    let s3 ← writeMem s2 (s2.SP + 1) ((s2.PC + 2) &&& 0xFF)
    some { s3 with PC := NNN }
  | 0x3 =>
    let s1 := if s.V X = NN then { s with PC := (s.PC + 2) % 65536 } else s
    some { s1 with PC := (s1.PC + 2) % 65536 }
  | 0x4 =>
    let s1 := if s.V X ≠ NN then { s with PC := (s.PC + 2) % 65536 } else s
    some { s1 with PC := (s1.PC + 2) % 65536 }
  | 0x5 =>
    let s1 := if s.V X = s.V Y then { s with PC := (s.PC + 2) % 65536 } else s
    some { s1 with PC := (s1.PC + 2) % 65536 }
  | 0x6 => some { setV s X NN with PC := (s.PC + 2) % 65536 }
  | 0x7 => some { setV s X ((s.V X + NN) % 256) with PC := (s.PC + 2) % 65536 }
  | 0x8 =>
    let s1 := Op8 s instr0 instr1
    some { s1 with PC := (s1.PC + 2) % 65536 }
  | 0x9 =>
    let s1 := if s.V X ≠ s.V Y then { s with PC := (s.PC + 2) % 65536 } else s
    some { s1 with PC := (s1.PC + 2) % 65536 }
  | 0xa => some { s with I := NNN, PC := (s.PC + 2) % 65536 }
  | 0xb => some { s with PC := (NNN + s.V 0) % 65536 }
  | 0xc => some { setV s X ((rnd &&& NN) % 256) with PC := (s.PC + 2) % 65536 }
  | 0xd => do
    let s1 ← OpD s (s.V X) (s.V Y) N
    some { s1 with PC := (s1.PC + 2) % 65536 }
  | 0xe => OpE s instr0 instr1
  | 0xf => OpF s instr0 instr1
  | _ => some s

/-- Repeated `EmulateChip8`: one step per entry of `rnds`, in order. -/
def EmulateSteps : List Nat → Chip8State → Option Chip8State
  | [], s => some s
  | rnd :: rest, s => (EmulateChip8 rnd s).bind (EmulateSteps rest)

/-- The instruction word at `PC` consists of the bytes `hi`, `lo`. -/
def InstrAt (s : Chip8State) (hi lo : Nat) : Prop :=
  s.PC + 1 < MEMORY_CAPACITY ∧ s.memory s.PC = hi ∧ s.memory (s.PC + 1) = lo

/-! ## States for concrete instances -/

/-- A state ready to run the single instruction `hi lo` at `0x200` with
`V[x] = a` and `V[y] = b`. -/
def regState (hi lo x a y b : Nat) : Chip8State :=
  setV (setV (loadProgram InitChip8 [hi, lo]) x a) y b

/-- The program `CALL 0x204` at `0x200` with `RET` at `0x204`. -/
def callDemo : Chip8State :=
  loadProgram InitChip8 [0x22, 0x04, 0x00, 0x00, 0x00, 0xEE]

/-! ## The display as pixels -/

/-- Display pixel at row `r`, column `c`: bit `7 - c mod 8` of the byte
`0xF00 + 8 r + c / 8`. -/
def pixel (m : Nat → Nat) (r c : Nat) : Bool :=
  (m (DISPLAY_BUFFER + 8 * r + c / 8)).testBit (7 - c % 8)

/-- The sprite bit that lands on pixel `(r, c)` when the `n`-row sprite at
`m[I ..]` is drawn at origin `(x, y)`: bit `7 - (c - x)` of `m[I + r - y]` inside
the sprite rectangle, `false` outside. -/
def spriteBit (m : Nat → Nat) (I x y n r c : Nat) : Bool :=
  decide (y ≤ r ∧ r < y + n ∧ x ≤ c ∧ c < x + 8) && (m (I + r - y)).testBit (7 - (c - x))

/-- The address `a` lies in the display region `0xF00..0xFFF`. -/
def inDisplay (a : Nat) : Prop := DISPLAY_BUFFER ≤ a ∧ a < DISPLAY_BUFFER + 256

/-- Relation between the state `s0` at entry of `OpD` and a state `s` inside
the drawing loops, where `P r c` tells whether a set sprite bit has been
drawn onto pixel `(r, c)` so far. -/
structure DrawInv (s0 s : Chip8State) (P : Nat → Nat → Bool) : Prop where
  hout : ∀ a, ¬ inDisplay a → s.memory a = s0.memory a
  hpix : ∀ r < 32, ∀ c < 64, pixel s.memory r c = xor (pixel s0.memory r c) (P r c)
  hbyte : ∀ a, s.memory a < 256
  hV : ∀ k, k ≠ 0xF → s.V k = s0.V k
  hVF1 : (∃ r < 32, ∃ c < 64, P r c = true ∧ pixel s0.memory r c = true) → s.V 0xF = 1
  hVF0 : (¬ ∃ r < 32, ∃ c < 64, P r c = true ∧ pixel s0.memory r c = true) → s.V 0xF = 0
  hI : s.I = s0.I
  hrest : s.keys = s0.keys ∧ s.SP = s0.SP ∧ s.PC = s0.PC ∧ s.delay = s0.delay ∧
    s.sound = s0.sound ∧ s.awaitingKey = s0.awaitingKey

/-- The sprite bits drawn once rows `0 .. i - 1` are complete. -/
def rowsDrawn (m : Nat → Nat) (I x y i r c : Nat) : Bool :=
  decide (y ≤ r ∧ r < y + i ∧ x ≤ c ∧ c < x + 8) && (m (I + (r - y))).testBit (7 - (c - x))

/-- A display with glyph-row `0xF0` already at the top left and `I = 0`, where
the first font byte `0xF0` is the sprite. -/
def drawDemo : Chip8State :=
  { InitChip8 with memory := fun a => if a = 0xF00 then 0xF0 else InitChip8.memory a }

/-- The state of the load, load, add scenario: `60 0A 61 05 80 14` at `0x200`. -/
def addProgram : Chip8State :=
  loadProgram InitChip8 [0x60, 0x0A, 0x61, 0x05, 0x80, 0x14]

/-- A state with the key-wait instruction `F30A` at `0x200`, the awaiting-key
flag `flag` and the key states `keys`. -/
def keyState (flag : Nat) (keys : Nat → Nat) : Chip8State :=
  { loadProgram InitChip8 [0xF3, 0x0A] with awaitingKey := flag, keys := keys }

/-- The state of the draw scenario: `A2 00 60 00 61 00 D0 15` at `0x200`. -/
def glyphProgram : Chip8State :=
  loadProgram InitChip8 [0xA2, 0x00, 0x60, 0x00, 0x61, 0x00, 0xD0, 0x15]

/-- The draw scenario with the index register set to the glyph table:
`A0 00 60 00 61 00 D0 15` at `0x200`. -/
def glyphProgramAtFont : Chip8State :=
  loadProgram InitChip8 [0xA0, 0x00, 0x60, 0x00, 0x61, 0x00, 0xD0, 0x15]

/-- The state `s` with the index register set to `i`. -/
def withI (s : Chip8State) (i : Nat) : Chip8State := { s with I := i }

/-- The instruction `6105` at `0x200` with the delay timer at 3 and the sound
timer at 0. -/
def timerDemo : Chip8State :=
  { loadProgram InitChip8 [0x61, 0x05] with delay := 3 }

/-- The state after one step from `timerDemo`. -/
def timerNext : Chip8State :=
  { setV (tickTimers timerDemo) 1 5 with PC := 0x202 }

/-- The instruction `00E0` at `0x200` with a nonzero display byte. -/
def clearDemo : Chip8State := loadProgram drawDemo [0x00, 0xE0]

/-- The instructions `F255`, `F265` at `0x200` with `V0 = 11`, `V1 = 22`,
`V2 = 0` and `I = 0x300`. -/
def dumpDemo : Chip8State :=
  withI (setV (setV (loadProgram InitChip8 [0xF2, 0x55, 0xF2, 0x65]) 0 11) 1 22) 0x300

/-- The instruction `F133` at `0x200` with `V1 = 234` and `I = 0x300`. -/
def bcdDemo : Chip8State := withI (regState 0xF1 0x33 1 234 2 0) 0x300

/-- The standard CHIP-8 hexadecimal font as the specification lists it, glyph
by glyph (five bytes each, digits `0` to `F`). -/
def standardFont : List Nat :=
  [ 0xF0, 0x90, 0x90, 0x90, 0xF0,  -- 0
    0x20, 0x60, 0x20, 0x20, 0x70,  -- 1
    0xF0, 0x10, 0xF0, 0x80, 0xF0,  -- 2
    0xF0, 0x10, 0xF0, 0x10, 0xF0,  -- 3
    0x90, 0x90, 0xF0, 0x10, 0x10,  -- 4
    0xF0, 0x80, 0xF0, 0x10, 0xF0,  -- 5
    0xF0, 0x80, 0xF0, 0x90, 0xF0,  -- 6
    0xF0, 0x10, 0x20, 0x40, 0x40,  -- 7
    0xF0, 0x90, 0xF0, 0x90, 0xF0,  -- 8
    0xF0, 0x90, 0xF0, 0x10, 0xF0,  -- 9
    0xF0, 0x90, 0xF0, 0x90, 0x90,  -- A
    0xE0, 0x90, 0xE0, 0x90, 0xE0,  -- B
    0xF0, 0x80, 0x80, 0x80, 0xF0,  -- C
    0xE0, 0x90, 0x90, 0x90, 0xE0,  -- D
    0xF0, 0x80, 0xF0, 0x80, 0xF0,  -- E
    0xF0, 0x80, 0xF0, 0x80, 0x80 ] -- F

/-- A state with the key-skip instruction `E3 lo` at `0x200`, `V3 = 5` and
key 5 pressed. -/
def skipDemo (lo : Nat) : Chip8State :=
  { setV (loadProgram InitChip8 [0xE3, lo]) 3 5 with keys := fun k => if k = 5 then 1 else 0 }

/-! ## Step and run predicates -/

/-- The state `s'` has the registers, memory, `I`, `SP`, key states and
awaiting-key flag of `s`. -/
def Untouched (s s' : Chip8State) : Prop :=
  s'.V = s.V ∧ s'.memory = s.memory ∧ s'.I = s.I ∧ s'.SP = s.SP ∧ s'.keys = s.keys ∧
    s'.awaitingKey = s.awaitingKey

/-- The opcode group that `EmulateChip8` dispatches on: the high nibble of the
byte at `PC`. -/
def opGroup (s : Chip8State) : Nat := (s.memory s.PC &&& 0xF0) >>> 4

/-- The instruction at `PC` is dispatched to the `RET` case of `Op0`. -/
def isReturn (s : Chip8State) : Prop := opGroup s = 0x0 ∧ s.memory (s.PC + 1) = 0xee

/-- The instruction at `PC` is a store that reaches into the glyph table
`0x000 .. 0x04F`: a call with the two stack bytes below `0x50`, or `FX33` or
`FX55` with `I` below `0x50`. -/
def storesIntoGlyphs (s : Chip8State) : Prop :=
  (opGroup s = 0x2 ∧ s.SP < 0x52) ∨
  (opGroup s = 0xf ∧ (s.memory (s.PC + 1) = 0x33 ∨ s.memory (s.PC + 1) = 0x55) ∧ s.I < 0x50)

instance decidableIsReturn (s : Chip8State) : Decidable (isReturn s) :=
  inferInstanceAs (Decidable (opGroup s = 0x0 ∧ s.memory (s.PC + 1) = 0xee))

instance decidableStoresIntoGlyphs (s : Chip8State) : Decidable (storesIntoGlyphs s) :=
  inferInstanceAs (Decidable ((opGroup s = 0x2 ∧ s.SP < 0x52) ∨
    (opGroup s = 0xf ∧ (s.memory (s.PC + 1) = 0x33 ∨ s.memory (s.PC + 1) = 0x55) ∧
      s.I < 0x50)))

/-- No step of the run from `s` (one step per entry of the list) is a store
that reaches into the glyph table. -/
def noGlyphStore : List Nat → Chip8State → Bool
  | [], _ => true
  | rnd :: rest, s =>
    !(decide (storesIntoGlyphs s)) &&
      match EmulateChip8 rnd s with
      | some s1 => noGlyphStore rest s1
      | none => true

/-- The state after the run from `s`, or `s` itself if the run leaves the
address space. -/
def runFrom (rnds : List Nat) (s : Chip8State) : Chip8State :=
  (EmulateSteps rnds s).getD s

/-- The program `A000 F055`: set `I = 0`, store `V0` at `memory[I]`. -/
def glyphStoreDemo : Chip8State := loadProgram InitChip8 [0xA0, 0x00, 0xF0, 0x55]

set_option maxRecDepth 20000 in
/-- The high nibble of a byte, as extracted by the decoder. -/
theorem byte_hi_nibble : ∀ b < 256, (b &&& 0xF0) >>> 4 = b / 16 := by decide

set_option maxRecDepth 20000 in
/-- The low nibble of a byte, as extracted by the decoder. -/
theorem byte_lo_nibble : ∀ b < 256, b &&& 0x0F = b % 16 := by decide

/-- The 12-bit field `NNN` of an instruction word. -/
theorem addr_field (a b : Nat) (hb : b < 256) :
    (((a &&& 0x0F) <<< 8) ||| b) &&& 0x0FFF = 256 * (a % 16) + b := by
  have h1 : a &&& 0x0F = a % 16 := Nat.and_pow_two_sub_one_eq_mod a 4
  have h2 : 2 ^ 8 * (a % 16) + b = 2 ^ 8 * (a % 16) ||| b :=
    Nat.mul_add_lt_is_or (by simpa using hb) _
  have h3 : ∀ n, n &&& 0x0FFF = n % 4096 := fun n => Nat.and_pow_two_sub_one_eq_mod n 12
  rw [h1, h3, Nat.shiftLeft_eq, Nat.mul_comm, ← h2]
  omega

/-- Masking with `0xFF` keeps the low byte. -/
theorem and_FF (n : Nat) : n &&& 0xFF = n % 256 := Nat.and_pow_two_sub_one_eq_mod n 8

@[simp]
theorem tickTimers_V (s : Chip8State) : (tickTimers s).V = s.V := rfl
@[simp]
theorem tickTimers_memory (s : Chip8State) : (tickTimers s).memory = s.memory := rfl
@[simp]
theorem tickTimers_keys (s : Chip8State) : (tickTimers s).keys = s.keys := rfl
@[simp]
theorem tickTimers_I (s : Chip8State) : (tickTimers s).I = s.I := rfl
@[simp]
theorem tickTimers_SP (s : Chip8State) : (tickTimers s).SP = s.SP := rfl
@[simp]
theorem tickTimers_PC (s : Chip8State) : (tickTimers s).PC = s.PC := rfl
@[simp]
theorem tickTimers_awaitingKey (s : Chip8State) :
    (tickTimers s).awaitingKey = s.awaitingKey := rfl

/-- Fetch and decode of an `8XYN` word: the step is `Op8` followed by `PC += 2`. -/
theorem EmulateChip8_group8 (rnd : Nat) (s : Chip8State) (X lo : Nat) (hX : X < 16)
    (hi : InstrAt s (0x80 + X) lo) :
    EmulateChip8 rnd s =
      some { Op8 (tickTimers s) (0x80 + X) lo with
        PC := ((Op8 (tickTimers s) (0x80 + X) lo).PC + 2) % 65536 } := by
  obtain ⟨hpc, h0, h1⟩ := hi
  have hpc0 : s.PC < MEMORY_CAPACITY := by omega
  have hn : ((0x80 + X) &&& 0xF0) >>> 4 = 8 := by
    rw [byte_hi_nibble _ (by omega)]; omega
  simp [EmulateChip8, readMem, hpc, hpc0, h0, h1, hn]

/-- The register fields of an `8XYN` word. -/
theorem group8_fields (X Y N : Nat) (hX : X < 16) (hY : Y < 16) (hN : N < 16) :
    (0x80 + X) &&& 0x0f = X ∧ ((0x10 * Y + N) &&& 0xf0) >>> 4 = Y ∧
      (0x10 * Y + N) &&& 0x0f = N := by
  refine ⟨?_, ?_, ?_⟩
  · rw [byte_lo_nibble _ (by omega)]; omega
  · rw [byte_hi_nibble _ (by omega)]; omega
  · rw [byte_lo_nibble _ (by omega)]; omega

/-! ## Well-formedness of the initial states -/

/-- Every glyph byte fits a `uint8_t`. -/
theorem fontBytes_lt : ∀ a < 0x50, fontBytes.getD a 0 < 256 := by decide

/-- The initial state is within the ranges of the C types. -/
theorem WF_InitChip8 : WF InitChip8 := by
  refine ⟨fun _ => by show (0 : Nat) < 256; decide, ?_,
    fun _ => by show (0 : Nat) < 256; decide, by decide, by decide, by decide,
    by decide, by decide, by decide⟩
  intro a
  simp only [InitChip8, InsertFontIntoMemory]
  split
  · exact fontBytes_lt a ‹_›
  · omega

/-- Loading an image of bytes keeps the state within the ranges. -/
theorem WF_loadProgram (s : Chip8State) (image : List Nat) (hwf : WF s)
    (himg : ∀ b ∈ image, b < 256) : WF (loadProgram s image) := by
  refine ⟨hwf.hV, ?_, hwf.hkeys, hwf.hI, hwf.hSP, hwf.hPC, hwf.hdelay, hwf.hsound, hwf.hawait⟩
  intro a
  simp only [loadProgram]
  split
  · rename_i h
    rw [List.getD_eq_getElem _ _ (by omega)]
    exact himg _ (List.getElem_mem _)
  · exact hwf.hmem a

/-- Storing a byte into a register keeps the state within the ranges. -/
theorem WF_setV (s : Chip8State) (x v : Nat) (hwf : WF s) (hv : v < 256) : WF (setV s x v) := by
  refine ⟨?_, hwf.hmem, hwf.hkeys, hwf.hI, hwf.hSP, hwf.hPC, hwf.hdelay, hwf.hsound, hwf.hawait⟩
  intro k
  simp only [setV]
  split
  · exact hv
  · exact hwf.hV k

/-- The states `regState` are within the ranges of the C types. -/
theorem WF_regState (hi lo x a y b : Nat) (hhi : hi < 256) (hlo : lo < 256) (ha : a < 256)
    (hb : b < 256) : WF (regState hi lo x a y b) := by
  refine WF_setV _ _ _ (WF_setV _ _ _ (WF_loadProgram _ _ WF_InitChip8 ?_) ha) hb
  intro c hc
  simp at hc
  rcases hc with rfl | rfl <;> assumption

/-- Setting the index register to a 16-bit value keeps the state within the
ranges. -/
theorem WF_withI (s : Chip8State) (i : Nat) (hwf : WF s) (hi : i < 65536) : WF (withI s i) :=
  ⟨hwf.hV, hwf.hmem, hwf.hkeys, hi, hwf.hSP, hwf.hPC, hwf.hdelay, hwf.hsound, hwf.hawait⟩

/-- The state `timerDemo` is within the ranges of the C types. -/
theorem WF_timerDemo : WF timerDemo := by
  have h := WF_loadProgram InitChip8 [0x61, 0x05] WF_InitChip8 (by
    intro b hb
    simp at hb
    rcases hb with rfl | rfl <;> decide)
  exact ⟨h.hV, h.hmem, h.hkeys, h.hI, h.hSP, h.hPC, by decide, h.hsound, h.hawait⟩

/-! ## Add and subtract (`8XY4`, `8XY5`, `8XY7`) -/

/-- C1: an `8XY4` step with `X ≠ 0xF` leaves `VX = (a + b) mod 256` and
`VF = 1` if `a + b > 255`, otherwise `VF = 0`, where `a`, `b` are the values of
`VX`, `VY` before the step. -/
theorem add_with_carry (rnd : Nat) (s : Chip8State) (X Y : Nat) (hwf : WF s)
    (hX : X < 15) (hY : Y < 16) (hi : InstrAt s (0x80 + X) (0x10 * Y + 0x4)) :
    ∃ s', EmulateChip8 rnd s = some s' ∧
      s'.V X = (s.V X + s.V Y) % 256 ∧
      s'.V 0xF = if s.V X + s.V Y > 255 then 1 else 0 := by
  refine ⟨_, EmulateChip8_group8 rnd s X _ (by omega) hi, ?_⟩
  obtain ⟨hx, hy, hn⟩ := group8_fields X Y 4 (by omega) hY (by omega)
  have ha := hwf.hV X
  have hb := hwf.hV Y
  have hXF : X ≠ 15 := by omega
  have hFX : ¬ (15 = X) := by omega
  have hsum : (s.V X + s.V Y) % 65536 = s.V X + s.V Y := by omega
  simp only [Op8, hx, hy, hn, setV, tickTimers_V, and_FF]
  simp [hXF, hFX, hsum]

/-- Instance of C1 at `V1 = 200`, `V2 = 100`, instruction `8124`. -/
theorem add_with_carry_witness :
    ∃ s', EmulateChip8 0 (regState 0x81 0x24 1 200 2 100) = some s' ∧
      s'.V 1 = ((regState 0x81 0x24 1 200 2 100).V 1 + (regState 0x81 0x24 1 200 2 100).V 2) % 256 ∧
      s'.V 0xF = if (regState 0x81 0x24 1 200 2 100).V 1 + (regState 0x81 0x24 1 200 2 100).V 2 > 255
        then 1 else 0 :=
  add_with_carry 0 (regState 0x81 0x24 1 200 2 100) 1 2
    (WF_regState _ _ _ _ _ _ (by decide) (by decide) (by decide) (by decide))
    (by decide) (by decide) ⟨by decide, by decide, by decide⟩

/-- C2: the code at the failing input.  With `V1 = V2 = 7` the `8125` step
leaves `VF = 0`, where the documented no-borrow flag (`VX >= VY`) is 1. -/
theorem sub_flag_equal_operands :
    InstrAt (regState 0x81 0x25 1 7 2 7) (0x80 + 1) (0x10 * 2 + 0x5) ∧
    (regState 0x81 0x25 1 7 2 7).V 1 = 7 ∧ (regState 0x81 0x25 1 7 2 7).V 2 = 7 ∧
    (EmulateChip8 0 (regState 0x81 0x25 1 7 2 7)).map (fun s => s.V 0xF) = some 0 := by
  refine ⟨⟨by decide, by decide, by decide⟩, by decide, by decide, by decide⟩

/-- C3: the code at the failing input.  With `V1 = V2 = 7` the `8127` step
leaves `VF = 0`, where the documented no-borrow flag (`VY >= VX`) is 1. -/
theorem bsub_flag_equal_operands :
    InstrAt (regState 0x81 0x27 1 7 2 7) (0x80 + 1) (0x10 * 2 + 0x7) ∧
    (regState 0x81 0x27 1 7 2 7).V 1 = 7 ∧ (regState 0x81 0x27 1 7 2 7).V 2 = 7 ∧
    (EmulateChip8 0 (regState 0x81 0x27 1 7 2 7)).map (fun s => s.V 0xF) = some 0 := by
  refine ⟨⟨by decide, by decide, by decide⟩, by decide, by decide, by decide⟩

/-- C4: with `X ≠ 0xF` and `Y ≠ 0xF`, an `8XY5` step leaves
`VX = (a - b) mod 256` and an `8XY7` step leaves `VX = (b - a) mod 256`, the
difference taken in the integers, so underflow wraps. -/
theorem sub_wraps (rnd : Nat) (s : Chip8State) (X Y : Nat)
    (hX : X < 15) (hY : Y < 15) :
    (InstrAt s (0x80 + X) (0x10 * Y + 0x5) →
      ∃ s', EmulateChip8 rnd s = some s' ∧
        (s'.V X : Int) = ((s.V X : Int) - (s.V Y : Int)) % 256) ∧
    (InstrAt s (0x80 + X) (0x10 * Y + 0x7) →
      ∃ s', EmulateChip8 rnd s = some s' ∧
        (s'.V X : Int) = ((s.V Y : Int) - (s.V X : Int)) % 256) := by
  have hXF : X ≠ 15 := by omega
  have hYF : Y ≠ 15 := by omega
  constructor
  · intro hi
    refine ⟨_, EmulateChip8_group8 rnd s X _ (by omega) hi, ?_⟩
    obtain ⟨hx, hy, hn⟩ := group8_fields X Y 5 (by omega) (by omega) (by omega)
    simp only [Op8, hx, hy, hn, setV, tickTimers_V]
    simp only [if_true, if_neg hXF, if_neg hYF]
    exact Int.toNat_of_nonneg (Int.emod_nonneg _ (by norm_num))
  · intro hi
    refine ⟨_, EmulateChip8_group8 rnd s X _ (by omega) hi, ?_⟩
    obtain ⟨hx, hy, hn⟩ := group8_fields X Y 7 (by omega) (by omega) (by omega)
    simp only [Op8, hx, hy, hn, setV, tickTimers_V]
    simp only [if_true, if_neg hXF, if_neg hYF]
    exact Int.toNat_of_nonneg (Int.emod_nonneg _ (by norm_num))

/-- Instance of C4 at the underflow cases `3 - 5` (`8125`) and `3 - 5` (`8127`). -/
theorem sub_wraps_witness :
    (∃ s', EmulateChip8 0 (regState 0x81 0x25 1 3 2 5) = some s' ∧
      (s'.V 1 : Int) = (((regState 0x81 0x25 1 3 2 5).V 1 : Int) -
        ((regState 0x81 0x25 1 3 2 5).V 2 : Int)) % 256) ∧
    (∃ s', EmulateChip8 0 (regState 0x81 0x27 1 5 2 3) = some s' ∧
      (s'.V 1 : Int) = (((regState 0x81 0x27 1 5 2 3).V 2 : Int) -
        ((regState 0x81 0x27 1 5 2 3).V 1 : Int)) % 256) :=
  ⟨(sub_wraps 0 (regState 0x81 0x25 1 3 2 5) 1 2 (by decide) (by decide)).1
      ⟨by decide, by decide, by decide⟩,
   (sub_wraps 0 (regState 0x81 0x27 1 5 2 3) 1 2 (by decide) (by decide)).2
      ⟨by decide, by decide, by decide⟩⟩

/-! ## Call and return -/

/-- The high byte stored by `CALL`. -/
theorem hi_byte (n : Nat) : (n &&& 0xFF00) >>> 8 = (n / 256) % 256 := by
  have h : (n &&& 0xFF00) >>> 8 = (n >>> 8) &&& 0xFF := by
    apply Nat.eq_of_testBit_eq
    intro i
    have e : (0xFF00 : Nat) = 0xFF <<< 8 := by decide
    rw [e, Nat.testBit_shiftRight, Nat.testBit_and, Nat.testBit_and, Nat.testBit_shiftRight,
      Nat.testBit_shiftLeft]
    simp
  rw [h, and_FF, Nat.shiftRight_eq_div_pow]

/-- Reassembling the two stored bytes gives back the return address. -/
theorem ret_target (n : Nat) (hn : n < 65536) :
    (((((n &&& 0xFF00) >>> 8) % 256) <<< 8) ||| (n &&& 0xFF)) % 65536 = n := by
  rw [hi_byte, and_FF, Nat.shiftLeft_eq, Nat.mul_comm]
  have h2 : 2 ^ 8 * ((n / 256) % 256 % 256) + n % 256 = 2 ^ 8 * ((n / 256) % 256 % 256) ||| n % 256 :=
    Nat.mul_add_lt_is_or (by simpa using Nat.mod_lt n (by norm_num : 256 > 0)) _
  rw [← h2]
  omega

/-- Fetch and decode of a `2NNN` word: the explicit state after the call. -/
theorem EmulateChip8_call (rnd : Nat) (s : Chip8State) (hi lo : Nat) (hhi : hi < 16)
    (hlo : lo < 256) (hsp : 2 ≤ s.SP) (hsp' : s.SP ≤ 4096)
    (hinstr : InstrAt s (0x20 + hi) lo) :
    EmulateChip8 rnd s =
      some { tickTimers s with
        SP := s.SP - 2
        memory := fun b =>
          if b = s.SP - 2 + 1 then (s.PC + 2) &&& 0xFF
          else if b = s.SP - 2 then (((s.PC + 2) &&& 0xFF00) >>> 8) % 256
          else s.memory b
        PC := 256 * hi + lo } := by
  obtain ⟨hpc, h0, h1⟩ := hinstr
  have hpc0 : s.PC < MEMORY_CAPACITY := by omega
  have hn : ((0x20 + hi) &&& 0xF0) >>> 4 = 2 := by
    rw [byte_hi_nibble _ (by omega)]; omega
  have hnnn := addr_field (0x20 + hi) lo hlo
  have hmod : (0x20 + hi) % 16 = hi := by omega
  have hspm : (s.SP + 65534) % 65536 = s.SP - 2 := by omega
  have hb1 : s.SP - 2 < MEMORY_CAPACITY := by simp only [MEMORY_CAPACITY]; omega
  have hb2 : s.SP - 2 + 1 < MEMORY_CAPACITY := by simp only [MEMORY_CAPACITY]; omega
  simp [EmulateChip8, readMem, writeMem, hpc, hpc0, h0, h1, hn, hnnn, hmod, hspm, hb1, hb2]

/-- Fetch and decode of `00EE`: the explicit state after the return. -/
theorem EmulateChip8_ret (rnd : Nat) (s : Chip8State) (hsp : s.SP + 1 < MEMORY_CAPACITY)
    (hinstr : InstrAt s 0x00 0xEE) :
    EmulateChip8 rnd s =
      some { tickTimers s with
        SP := (s.SP + 2) % 65536
        PC := ((s.memory s.SP <<< 8) ||| s.memory (s.SP + 1)) % 65536 } := by
  obtain ⟨hpc, h0, h1⟩ := hinstr
  have hpc0 : s.PC < MEMORY_CAPACITY := by omega
  have hsp0 : s.SP < MEMORY_CAPACITY := by omega
  simp [EmulateChip8, readMem, hpc, hpc0, h0, h1, Op0, hsp, hsp0]

/-- C5: from a state with `PC = p ≤ 4094`, `2 ≤ SP ≤ 4096` and a `2NNN` word
at `p`, if after the call the bytes at the target `t` and `t + 1` are `0x00`,
`0xEE`, then the call step and the return step both succeed and leave
`PC = p + 2` and `SP` at its value before the call. -/
theorem call_return_roundtrip (r1 r2 : Nat) (s : Chip8State) (hi lo : Nat)
    (hp : s.PC ≤ 4094) (hsp : 2 ≤ s.SP) (hsp' : s.SP ≤ 4096)
    (hhi : hi < 16) (hlo : lo < 256) (hinstr : InstrAt s (0x20 + hi) lo)
    (hret : ∀ s1, EmulateChip8 r1 s = some s1 →
      readMem s1 (256 * hi + lo) = some 0x00 ∧ readMem s1 (256 * hi + lo + 1) = some 0xEE) :
    ∃ s1 s2, EmulateChip8 r1 s = some s1 ∧ EmulateChip8 r2 s1 = some s2 ∧
      s2.PC = s.PC + 2 ∧ s2.SP = s.SP := by
  have hcall := EmulateChip8_call r1 s hi lo hhi hlo hsp hsp' hinstr
  obtain ⟨hr0, hr1⟩ := hret _ hcall
  have ht : 256 * hi + lo + 1 < MEMORY_CAPACITY := by
    by_contra h
    simp [readMem, h] at hr1
  have ht0 : 256 * hi + lo < MEMORY_CAPACITY := by omega
  simp only [readMem, ht, ht0, if_true, Option.some.injEq] at hr0 hr1
  have hb2 : s.SP - 2 + 1 < MEMORY_CAPACITY := by simp only [MEMORY_CAPACITY]; omega
  have hne : s.SP - 2 ≠ s.SP - 2 + 1 := by omega
  have htgt := ret_target (s.PC + 2) (by omega)
  have hsp2 : (s.SP - 2 + 2) % 65536 = s.SP := by omega
  refine ⟨_, _, hcall, EmulateChip8_ret r2 _ hb2 ⟨ht, hr0, hr1⟩, ?_, ?_⟩
  · simpa [hne] using htgt
  · exact hsp2

/-- Instance of C5: `CALL 0x204` at `0x200` with `RET` at `0x204`. -/
theorem call_return_roundtrip_witness :
    ∃ s1 s2, EmulateChip8 0 callDemo = some s1 ∧ EmulateChip8 0 s1 = some s2 ∧
      s2.PC = callDemo.PC + 2 ∧ s2.SP = callDemo.SP :=
  call_return_roundtrip 0 0 callDemo 2 4 (by decide) (by decide) (by decide) (by decide)
    (by decide) ⟨by decide, by decide, by decide⟩
    (by
      intro s1 h
      have h2 : (EmulateChip8 0 callDemo).map
          (fun t => (readMem t (256 * 2 + 4), readMem t (256 * 2 + 4 + 1))) =
          some (some 0x00, some 0xEE) := by decide
      rw [h] at h2
      simpa using h2)

/-! ## The draw loops of `OpD` -/

/-- `DrawInv` only looks at the progress map on the 32 x 64 display pixels. -/
theorem DrawInv.congr {s0 s : Chip8State} {P Q : Nat → Nat → Bool}
    (h : DrawInv s0 s P) (hPQ : ∀ r < 32, ∀ c < 64, P r c = Q r c) : DrawInv s0 s Q := by
  have hex : (∃ r < 32, ∃ c < 64, P r c = true ∧ pixel s0.memory r c = true) ↔
      (∃ r < 32, ∃ c < 64, Q r c = true ∧ pixel s0.memory r c = true) := by
    constructor
    · rintro ⟨r, hr, c, hc, h1, h2⟩
      exact ⟨r, hr, c, hc, by rw [← hPQ r hr c hc]; exact h1, h2⟩
    · rintro ⟨r, hr, c, hc, h1, h2⟩
      exact ⟨r, hr, c, hc, by rw [hPQ r hr c hc]; exact h1, h2⟩
  refine ⟨h.hout, ?_, h.hbyte, h.hV, fun hq => h.hVF1 (hex.2 hq),
    fun hq => h.hVF0 (fun hp => hq (hex.1 hp)), h.hI, h.hrest⟩
  intro r hr c hc
  rw [← hPQ r hr c hc]
  exact h.hpix r hr c hc

/-- Flipping bit `7 - c0 mod 8` of the byte of pixel `(r0, c0)` flips that pixel
and no other. -/
theorem pixel_flip (m : Nat → Nat) (r0 c0 r c : Nat) (hc0 : c0 < 64) (hc : c < 64) :
    pixel (fun b => if b = DISPLAY_BUFFER + (r0 * (64 / 8) + c0 / 8)
      then m (DISPLAY_BUFFER + (r0 * (64 / 8) + c0 / 8)) ^^^ 2 ^ (7 - c0 % 8) else m b) r c
      = xor (pixel m r c) (decide (r = r0 ∧ c = c0)) := by
  unfold pixel
  dsimp only
  by_cases ha : DISPLAY_BUFFER + 8 * r + c / 8 = DISPLAY_BUFFER + (r0 * (64 / 8) + c0 / 8)
  · rw [if_pos ha, Nat.testBit_xor, Nat.testBit_two_pow, ← ha]
    congr 1
    have : (7 - c0 % 8 = 7 - c % 8) ↔ (r = r0 ∧ c = c0) := by omega
    simp only [this]
  · rw [if_neg ha]
    have : ¬ (r = r0 ∧ c = c0) := by
      rintro ⟨rfl, rfl⟩
      exact ha (by omega)
    simp [this]

set_option maxRecDepth 100000 in
/-- The read-modify-write of one destination byte in `OpD`, for every byte `d`
and bit position `k`: the written byte is `d` with bit `7 - k` flipped, and the
collision test is bit `7 - k` of `d`. -/
theorem flip_byte : ∀ k < 8, ∀ d < 256,
    ((d &&& (0xFF ^^^ (0x80 >>> k))) ||| ((d &&& (0x80 >>> k)) ^^^ ((1 <<< (7 - k)) % 256))) % 256
        = d ^^^ 2 ^ (7 - k) ∧
    ((((1 <<< (7 - k)) % 256) &&& (d &&& (0x80 >>> k)) ≠ 0) ↔ d.testBit (7 - k) = true) := by
  decide

/-- A sprite bit is set iff the masked shift of the source is nonzero. -/
theorem srcbit_ne_zero (b sb : Nat) : ((b >>> sb) &&& 0x1 ≠ 0) ↔ b.testBit sb = true := by
  rw [Nat.testBit_to_div_mod, Nat.and_one_is_mod, Nat.shiftRight_eq_div_pow]
  have := Nat.mod_two_eq_zero_or_one (b / 2 ^ sb)
  simp only [decide_eq_true_eq]
  omega

/-- One pass through the body of the inner loop of `OpD`. -/
theorem OpD_bit_inv (s0 s : Chip8State) (P : Nat → Nat → Bool) (y i j sb : Nat)
    (hinv : DrawInv s0 s P) (hrow : i + y < 32) (hcol : j < 64)
    (hspr : s0.I + i < DISPLAY_BUFFER) (hfresh : P (i + y) j = false) :
    ∃ s', OpD_bit y i j sb s = some s' ∧
      DrawInv s0 s' (fun r c =>
        P r c || (decide (r = i + y ∧ c = j) && (s0.memory (s0.I + i)).testBit sb)) := by
  have hI := hinv.hI
  have hsa : s.I + i < MEMORY_CAPACITY := by
    rw [hI]; simp only [MEMORY_CAPACITY, DISPLAY_BUFFER] at *; omega
  have hsm : s.memory (s.I + i) = s0.memory (s0.I + i) := by
    rw [hI]; apply hinv.hout
    simp only [inDisplay]; omega
  by_cases hsrc : (s0.memory (s0.I + i)).testBit sb = true
  · -- the sprite bit is set: the destination byte is rewritten
    have hne : (s0.memory (s0.I + i) >>> sb) &&& 0x1 ≠ 0 := (srcbit_ne_zero _ _).2 hsrc
    have hone : (s0.memory (s0.I + i) >>> sb) &&& 0x1 = 1 := by
      have := Nat.and_one_is_mod (s0.memory (s0.I + i) >>> sb)
      have := Nat.mod_two_eq_zero_or_one (s0.memory (s0.I + i) >>> sb)
      omega
    have haddr : DISPLAY_BUFFER + ((i + y) * (64 / 8) + j / 8) < MEMORY_CAPACITY := by
      simp only [MEMORY_CAPACITY, DISPLAY_BUFFER]; omega
    obtain ⟨hflip, hcoll⟩ := flip_byte (j % 8) (Nat.mod_lt _ (by norm_num))
      (s.memory (DISPLAY_BUFFER + ((i + y) * (64 / 8) + j / 8))) (hinv.hbyte _)
    have hpixold : (s.memory (DISPLAY_BUFFER + ((i + y) * (64 / 8) + j / 8))).testBit (7 - j % 8)
        = pixel s0.memory (i + y) j := by
      have := hinv.hpix (i + y) hrow j hcol
      rw [hfresh, Bool.xor_false] at this
      rw [← this]; unfold pixel
      congr 2; omega
    have hone' : (s0.memory (s0.I + i) >>> sb) % 2 = 1 := by
      rw [← Nat.and_one_is_mod]; exact hone
    simp only [OpD_bit, readMem, hsa, hsm, haddr, if_true, hone, Option.bind_eq_bind,
      Option.some_bind, ne_eq, one_ne_zero, not_false_eq_true, hflip]
    have hsrcb : (s0.memory (s0.I + i)).testBit sb = true := hsrc
    have hnotin : ∀ a, ¬ inDisplay a → a ≠ DISPLAY_BUFFER + ((i + y) * (64 / 8) + j / 8) := by
      intro a ha h
      apply ha
      simp only [inDisplay, h]; omega
    have hpix' : ∀ r < 32, ∀ c < 64,
        pixel (fun b => if b = DISPLAY_BUFFER + ((i + y) * (64 / 8) + j / 8)
          then s.memory (DISPLAY_BUFFER + ((i + y) * (64 / 8) + j / 8)) ^^^ 2 ^ (7 - j % 8)
          else s.memory b) r c =
        xor (pixel s0.memory r c)
          (P r c || (decide (r = i + y ∧ c = j) && (s0.memory (s0.I + i)).testBit sb)) := by
      intro r hr c hc
      rw [pixel_flip s.memory (i + y) j r c hcol hc, hinv.hpix r hr c hc, hsrcb]
      by_cases hrc : r = i + y ∧ c = j
      · obtain ⟨rfl, rfl⟩ := hrc
        simp [hfresh]
      · simp [hrc]
    have hbyte' : ∀ a, (if a = DISPLAY_BUFFER + ((i + y) * (64 / 8) + j / 8)
          then s.memory (DISPLAY_BUFFER + ((i + y) * (64 / 8) + j / 8)) ^^^ 2 ^ (7 - j % 8)
          else s.memory a) < 256 := by
      intro a
      split
      · exact Nat.xor_lt_two_pow (n := 8) (hinv.hbyte _)
          (Nat.pow_lt_pow_right (by norm_num) (by omega))
      · exact hinv.hbyte a
    by_cases hc : pixel s0.memory (i + y) j = true
    · have hcond : ¬ (1 <<< (7 - j % 8) % 256 &&&
          (s.memory (DISPLAY_BUFFER + ((i + y) * (64 / 8) + j / 8)) &&& 128 >>> (j % 8)) = 0) :=
        hcoll.2 (hpixold.trans hc)
      rw [if_pos hcond]
      refine ⟨_, by rw [writeMem, if_pos haddr], ?_⟩
      refine ⟨?_, hpix', hbyte', ?_, ?_, ?_, hinv.hI, hinv.hrest⟩
      · intro a ha
        simp only [setV, if_neg (hnotin a ha)]
        exact hinv.hout a ha
      · intro k hk
        simp only [setV, if_neg hk]
        exact hinv.hV k hk
      · intro _
        simp [setV]
      · intro hno
        exact absurd ⟨i + y, hrow, j, hcol, by simp [hsrcb], hc⟩ hno
    · have hcond : ¬ ¬ (1 <<< (7 - j % 8) % 256 &&&
          (s.memory (DISPLAY_BUFFER + ((i + y) * (64 / 8) + j / 8)) &&& 128 >>> (j % 8)) = 0) := by
        intro h
        exact hc (hpixold.symm.trans (hcoll.1 h))
      rw [if_neg hcond]
      refine ⟨_, by rw [writeMem, if_pos haddr], ?_⟩
      refine ⟨?_, hpix', hbyte', hinv.hV, ?_, ?_, hinv.hI, hinv.hrest⟩
      · intro a ha
        simp only [if_neg (hnotin a ha)]
        exact hinv.hout a ha
      · rintro ⟨r, hr, c, hcc, h1, h2⟩
        apply hinv.hVF1
        refine ⟨r, hr, c, hcc, ?_, h2⟩
        by_cases hrc : r = i + y ∧ c = j
        · obtain ⟨rfl, rfl⟩ := hrc
          exact absurd h2 hc
        · simpa [hrc] using h1
      · intro hno
        apply hinv.hVF0
        rintro ⟨r, hr, c, hcc, h1, h2⟩
        exact hno ⟨r, hr, c, hcc, by simp [h1], h2⟩
  · -- the sprite bit is clear: nothing happens
    have hz : (s0.memory (s0.I + i) >>> sb) &&& 0x1 = 0 := by
      by_contra h
      exact hsrc ((srcbit_ne_zero _ _).1 h)
    have hz' : (s0.memory (s0.I + i) >>> sb) % 2 = 0 := by
      rw [← Nat.and_one_is_mod]; exact hz
    refine ⟨s, ?_, hinv.congr ?_⟩
    · simp [OpD_bit, readMem, hsa, hsm, hz']
    · intro r _ c _
      simp [hsrc]

/-- The inner loop of `OpD` entered at column `j` draws the remaining bits of
sprite row `i`. -/
theorem OpD_cols_inv (s0 : Chip8State) (x y i : Nat) (hrow : i + y < 32)
    (hspr : s0.I + i < DISPLAY_BUFFER) :
    ∀ (fuel j : Nat) (s : Chip8State) (P : Nat → Nat → Bool), DrawInv s0 s P → x ≤ j →
      x + 8 ≤ fuel + j → (∀ c, j ≤ c → P (i + y) c = false) →
      ∃ s', OpD_cols x y i fuel j (7 - (j - x)) s = some s' ∧
        DrawInv s0 s' (fun r c => P r c ||
          (decide (r = i + y ∧ j ≤ c ∧ c < x + 8) &&
            (s0.memory (s0.I + i)).testBit (7 - (c - x)))) := by
  intro fuel
  induction fuel with
  | zero =>
    intro j s P hinv _ hfuel _
    refine ⟨s, ?_, hinv.congr ?_⟩
    · have : ¬ (j < x + 8 ∧ j < 64) := by omega
      simp only [OpD_cols, if_neg this]
    · intro r _ c _
      have : ¬ (r = i + y ∧ j ≤ c ∧ c < x + 8) := by omega
      simp [this]
  | succ fuel ih =>
    intro j s P hinv hxj hfuel hfresh
    by_cases hcond : j < x + 8 ∧ j < 64
    · obtain ⟨s1, hs1, hinv1⟩ := OpD_bit_inv s0 s P y i j (7 - (j - x)) hinv hrow hcond.2 hspr
        (hfresh j (Nat.le_refl j))
      have hsb : 7 - (j - x) - 1 = 7 - (j + 1 - x) := by omega
      obtain ⟨s2, hs2, hinv2⟩ := ih (j + 1) s1 _ hinv1 (by omega) (by omega) (by
        intro c hc
        have hne : ¬ (i + y = i + y ∧ c = j) := by omega
        show (P (i + y) c || (decide (i + y = i + y ∧ c = j) && _)) = false
        rw [hfresh c (by omega), decide_eq_false hne]
        rfl)
      refine ⟨s2, ?_, hinv2.congr ?_⟩
      · simp only [OpD_cols, if_pos hcond, hs1, Option.some_bind, hsb, hs2]
      · intro r _ c _
        dsimp only
        by_cases h1 : r = i + y ∧ c = j
        · have h2 : ¬ (r = i + y ∧ j + 1 ≤ c ∧ c < x + 8) := by omega
          have h3 : (r = i + y ∧ j ≤ c ∧ c < x + 8) := by omega
          rw [decide_eq_true h1, decide_eq_false h2, decide_eq_true h3, h1.2]
          simp
        · have h2 : (r = i + y ∧ j + 1 ≤ c ∧ c < x + 8) ↔ (r = i + y ∧ j ≤ c ∧ c < x + 8) := by
            omega
          rw [decide_eq_false h1]
          simp only [h2]
          simp
    · refine ⟨s, ?_, hinv.congr ?_⟩
      · simp only [OpD_cols, if_neg hcond]
      · intro r _ c hc
        have : ¬ (r = i + y ∧ j ≤ c ∧ c < x + 8) := by omega
        simp [this]

/-- The outer loop of `OpD` entered at row `i` draws the remaining rows. -/
theorem OpD_rows_inv (s0 : Chip8State) (x y n : Nat) (hy : y + n ≤ 32)
    (hspr : ∀ i < n, s0.I + i < DISPLAY_BUFFER) :
    ∀ (fuel i : Nat) (s : Chip8State), DrawInv s0 s (rowsDrawn s0.memory s0.I x y i) → i ≤ n →
      n ≤ fuel + i →
      ∃ s', OpD_rows x y n fuel i s = some s' ∧
        DrawInv s0 s' (rowsDrawn s0.memory s0.I x y n) := by
  intro fuel
  induction fuel with
  | zero =>
    intro i s hinv hin hfuel
    have hi : i = n := by omega
    subst hi
    exact ⟨s, by simp only [OpD_rows, if_neg (Nat.lt_irrefl i)], hinv⟩
  | succ fuel ih =>
    intro i s hinv hin hfuel
    by_cases hcond : i < n
    · obtain ⟨s1, hs1, hinv1⟩ := OpD_cols_inv s0 x y i (by omega) (hspr i hcond) 8 x s _ hinv
        (Nat.le_refl x) (by omega) (by
          intro c _
          have hne : ¬ (y ≤ i + y ∧ i + y < y + i ∧ x ≤ c ∧ c < x + 8) := by omega
          rw [rowsDrawn, decide_eq_false hne]
          rfl)
      have hinv1' : DrawInv s0 s1 (rowsDrawn s0.memory s0.I x y (i + 1)) := by
        refine hinv1.congr ?_
        intro r _ c _
        simp only [rowsDrawn]
        by_cases h1 : r = i + y
        · have h2 : ¬ (y ≤ r ∧ r < y + i ∧ x ≤ c ∧ c < x + 8) := by omega
          have h3 : (y ≤ r ∧ r < y + (i + 1) ∧ x ≤ c ∧ c < x + 8) ↔
              (r = i + y ∧ x ≤ c ∧ c < x + 8) := by omega
          have h4 : r - y = i := by omega
          rw [decide_eq_false h2, h4]
          simp only [h3]
          simp
        · have h2 : (y ≤ r ∧ r < y + (i + 1) ∧ x ≤ c ∧ c < x + 8) ↔
              (y ≤ r ∧ r < y + i ∧ x ≤ c ∧ c < x + 8) := by omega
          have h3 : ¬ (r = i + y ∧ x ≤ c ∧ c < x + 8) := by omega
          rw [decide_eq_false h3]
          simp only [h2]
          simp
      obtain ⟨s2, hs2, hinv2⟩ := ih (i + 1) s1 hinv1' (by omega) (by omega)
      refine ⟨s2, ?_, hinv2⟩
      have h7 : 7 - (x - x) = 7 := by omega
      rw [h7] at hs1
      simp only [OpD_rows, if_pos hcond, hs1, Option.some_bind, hs2]
    · have hi : i = n := by omega
      subst hi
      exact ⟨s, by simp only [OpD_rows, if_neg hcond], hinv⟩

/-- `OpD` as a whole: it returns, and the result is related to the entry state
by `DrawInv` for the complete sprite. -/
theorem OpD_inv (s : Chip8State) (x y n : Nat) (hmem : ∀ a, s.memory a < 256)
    (hy : y + n ≤ 32) (hspr : ∀ i < n, s.I + i < DISPLAY_BUFFER) :
    ∃ s', OpD s x y n = some s' ∧ DrawInv s s' (rowsDrawn s.memory s.I x y n) := by
  have hstart : DrawInv s (setV s 0xF 0) (rowsDrawn s.memory s.I x y 0) := by
    have hnone : ∀ r c, rowsDrawn s.memory s.I x y 0 r c = false := by
      intro r c
      have hne : ¬ (y ≤ r ∧ r < y + 0 ∧ x ≤ c ∧ c < x + 8) := by omega
      rw [rowsDrawn, decide_eq_false hne]
      rfl
    refine ⟨fun _ _ => rfl, ?_, hmem, ?_, ?_, ?_, rfl, rfl, rfl, rfl, rfl, rfl, rfl⟩
    · intro r _ c _
      rw [hnone]
      simp [setV]
    · intro k hk
      simp only [setV, if_neg hk]
    · rintro ⟨r, _, c, _, h, _⟩
      rw [hnone] at h
      exact absurd h (by decide)
    · intro _
      simp [setV]
  exact OpD_rows_inv s x y n hy hspr n 0 (setV s 0xF 0) hstart (Nat.zero_le n) (by omega)

/-- Inside the display the progress map of the finished draw is the sprite bit
of the specification. -/
theorem rowsDrawn_eq_spriteBit (m : Nat → Nat) (I x y n r c : Nat) :
    rowsDrawn m I x y n r c = spriteBit m I x y n r c := by
  unfold rowsDrawn spriteBit
  by_cases h : y ≤ r ∧ r < y + n ∧ x ≤ c ∧ c < x + 8
  · have e : I + (r - y) = I + r - y := by omega
    rw [e]
  · rw [decide_eq_false h]
    rfl

/-- Two memories of bytes with the same pixels have the same display bytes. -/
theorem display_bytes_eq (m m' : Nat → Nat) (hm : ∀ a, m a < 256) (hm' : ∀ a, m' a < 256)
    (h : ∀ r < 32, ∀ c < 64, pixel m' r c = pixel m r c) :
    ∀ a, inDisplay a → m' a = m a := by
  intro a ha
  simp only [inDisplay, DISPLAY_BUFFER] at ha
  apply Nat.eq_of_testBit_eq
  intro k
  by_cases hk : k < 8
  · have hp := h ((a - 0xF00) / 8) (by omega) (8 * ((a - 0xF00) % 8) + (7 - k)) (by omega)
    unfold pixel at hp
    have e1 : DISPLAY_BUFFER + 8 * ((a - 0xF00) / 8) + (8 * ((a - 0xF00) % 8) + (7 - k)) / 8 = a := by
      simp only [DISPLAY_BUFFER]; omega
    have e2 : 7 - (8 * ((a - 0xF00) % 8) + (7 - k)) % 8 = k := by omega
    rw [e1, e2] at hp
    exact hp
  · have h8 : (256 : Nat) ≤ 2 ^ k := by
      calc (256 : Nat) = 2 ^ 8 := by norm_num
        _ ≤ 2 ^ k := Nat.pow_le_pow_right (by norm_num) (by omega)
    rw [Nat.testBit_lt_two_pow (Nat.lt_of_lt_of_le (hm' a) h8),
      Nat.testBit_lt_two_pow (Nat.lt_of_lt_of_le (hm a) h8)]

/-- Two draws in a row: both return, and the second is related to the first by
`DrawInv` for the same sprite bits as the first is to the entry state. -/
theorem OpD_twice_inv (s : Chip8State) (x y n : Nat) (hmem : ∀ a, s.memory a < 256)
    (hy : y + n ≤ 32) (hspr : ∀ i < n, s.I + i < DISPLAY_BUFFER) :
    ∃ s1 s2, OpD s x y n = some s1 ∧ OpD s1 x y n = some s2 ∧
      DrawInv s s1 (spriteBit s.memory s.I x y n) ∧
      DrawInv s1 s2 (spriteBit s.memory s.I x y n) := by
  obtain ⟨s1, h1, inv1⟩ := OpD_inv s x y n hmem hy hspr
  have hspr1 : ∀ i < n, s1.I + i < DISPLAY_BUFFER := by
    intro i hi; rw [inv1.hI]; exact hspr i hi
  obtain ⟨s2, h2, inv2⟩ := OpD_inv s1 x y n inv1.hbyte hy hspr1
  refine ⟨s1, s2, h1, h2, inv1.congr (fun r _ c _ => rowsDrawn_eq_spriteBit _ _ _ _ _ _ _),
    inv2.congr ?_⟩
  intro r _ c _
  rw [← rowsDrawn_eq_spriteBit]
  unfold rowsDrawn
  by_cases h : y ≤ r ∧ r < y + n ∧ x ≤ c ∧ c < x + 8
  · have hout : ¬ inDisplay (s.I + (r - y)) := by
      have := hspr (r - y) (by omega)
      simp only [inDisplay]; omega
    rw [inv1.hI, inv1.hout _ hout]
  · rw [decide_eq_false h]
    rfl

/-- The state `drawDemo` is within the ranges of the C types. -/
theorem WF_drawDemo : WF drawDemo := by
  refine ⟨WF_InitChip8.hV, ?_, WF_InitChip8.hkeys, WF_InitChip8.hI, WF_InitChip8.hSP,
    WF_InitChip8.hPC, WF_InitChip8.hdelay, WF_InitChip8.hsound, WF_InitChip8.hawait⟩
  intro a
  show (if a = 0xF00 then 0xF0 else InitChip8.memory a) < 256
  split
  · decide
  · exact WF_InitChip8.hmem a

/-! ## Drawing twice, the collision flag and the draw semantics -/

/-- C6: for a sprite whose bytes lie in memory below the display region and
`y + n ≤ 32`, two `OpD(x, y, n)` in a row both return and leave every display
byte, and the whole memory, as before the first draw. -/
theorem draw_twice_restores (s : Chip8State) (x y n : Nat) (hwf : WF s) (hy : y + n ≤ 32)
    (hspr : ∀ i < n, s.I + i < DISPLAY_BUFFER) :
    ∃ s1 s2, OpD s x y n = some s1 ∧ OpD s1 x y n = some s2 ∧
      (∀ a, inDisplay a → s2.memory a = s.memory a) ∧ s2.memory = s.memory := by
  obtain ⟨s1, s2, h1, h2, inv1, inv2⟩ := OpD_twice_inv s x y n hwf.hmem hy hspr
  have hdisp : ∀ a, inDisplay a → s2.memory a = s.memory a := by
    apply display_bytes_eq s.memory s2.memory hwf.hmem inv2.hbyte
    intro r hr c hc
    rw [inv2.hpix r hr c hc, inv1.hpix r hr c hc]
    cases pixel s.memory r c <;> cases spriteBit s.memory s.I x y n r c <;> rfl
  refine ⟨s1, s2, h1, h2, hdisp, ?_⟩
  funext a
  by_cases ha : inDisplay a
  · exact hdisp a ha
  · rw [inv2.hout a ha, inv1.hout a ha]

/-- Instance of C6 at the state `drawDemo`, origin `(0, 0)`, height 1. -/
theorem draw_twice_restores_witness :
    ∃ s1 s2, OpD drawDemo 0 0 1 = some s1 ∧ OpD s1 0 0 1 = some s2 ∧
      (∀ a, inDisplay a → s2.memory a = drawDemo.memory a) ∧ s2.memory = drawDemo.memory :=
  draw_twice_restores drawDemo 0 0 1 WF_drawDemo (by decide) (by decide)

/-- C7 as stated fails: with the display byte `0xF0` at the origin and the
sprite byte `0xF0`, the first `OpD(0, 0, 1)` leaves `VF = 1` and the second
leaves `VF = 0`. -/
theorem repeated_draw_flag_fails :
    WF drawDemo ∧ 0 + 1 ≤ 32 ∧ (∀ i < 1, drawDemo.I + i < DISPLAY_BUFFER) ∧
    (OpD drawDemo 0 0 1).map (fun s1 => s1.V 0xF) = some 1 ∧
    ((OpD drawDemo 0 0 1).bind (fun s1 => OpD s1 0 0 1)).map (fun s2 => s2.V 0xF) = some 0 :=
  ⟨WF_drawDemo, by decide, by decide, by decide, by decide⟩

/-- C7, amended: under the hypotheses of C6 the second of two `OpD(x, y, n)`
in a row leaves `VF = 1` if some set sprite bit landed on a display pixel that
was clear before the first draw, and `VF = 0` otherwise. -/
theorem second_draw_flag (s : Chip8State) (x y n : Nat) (hwf : WF s) (hy : y + n ≤ 32)
    (hspr : ∀ i < n, s.I + i < DISPLAY_BUFFER) :
    ∃ s1 s2, OpD s x y n = some s1 ∧ OpD s1 x y n = some s2 ∧
      ((∃ r < 32, ∃ c < 64,
          spriteBit s.memory s.I x y n r c = true ∧ pixel s.memory r c = false) →
        s2.V 0xF = 1) ∧
      ((¬ ∃ r < 32, ∃ c < 64,
          spriteBit s.memory s.I x y n r c = true ∧ pixel s.memory r c = false) →
        s2.V 0xF = 0) := by
  obtain ⟨s1, s2, h1, h2, inv1, inv2⟩ := OpD_twice_inv s x y n hwf.hmem hy hspr
  have key : ∀ r < 32, ∀ c < 64, spriteBit s.memory s.I x y n r c = true →
      (pixel s1.memory r c = true ↔ pixel s.memory r c = false) := by
    intro r hr c hc hs
    rw [inv1.hpix r hr c hc, hs]
    cases pixel s.memory r c <;> simp
  refine ⟨s1, s2, h1, h2, ?_, ?_⟩
  · rintro ⟨r, hr, c, hc, hs, hp⟩
    exact inv2.hVF1 ⟨r, hr, c, hc, hs, (key r hr c hc hs).2 hp⟩
  · intro hno
    apply inv2.hVF0
    rintro ⟨r, hr, c, hc, hs, hp⟩
    exact hno ⟨r, hr, c, hc, hs, (key r hr c hc hs).1 hp⟩

/-- Instance of amended C7 at the state `drawDemo`, origin `(0, 0)`, height 1. -/
theorem second_draw_flag_witness :
    ∃ s1 s2, OpD drawDemo 0 0 1 = some s1 ∧ OpD s1 0 0 1 = some s2 ∧
      ((∃ r < 32, ∃ c < 64,
          spriteBit drawDemo.memory drawDemo.I 0 0 1 r c = true ∧
            pixel drawDemo.memory r c = false) →
        s2.V 0xF = 1) ∧
      ((¬ ∃ r < 32, ∃ c < 64,
          spriteBit drawDemo.memory drawDemo.I 0 0 1 r c = true ∧
            pixel drawDemo.memory r c = false) →
        s2.V 0xF = 0) :=
  second_draw_flag drawDemo 0 0 1 WF_drawDemo (by decide) (by decide)

/-- C8: for a sprite whose bytes `memory[I .. I+n)` lie in memory below the
display region and `y + n ≤ 32`, `OpD(x, y, n)` returns, every display pixel
`(r, c)` becomes its old value XOR the sprite bit `spriteBit` (no wrap-around:
columns from 64 on are not display pixels), `VF = 1` if some pixel had both its
old value and the sprite bit set and `VF = 0` otherwise, and memory outside the
display region is unchanged.  The statement holds for every `x`. -/
theorem draw_semantics (s : Chip8State) (x y n : Nat) (hwf : WF s) (hy : y + n ≤ 32)
    (hspr : ∀ i < n, s.I + i < DISPLAY_BUFFER) :
    ∃ s', OpD s x y n = some s' ∧
      (∀ r < 32, ∀ c < 64,
        pixel s'.memory r c = xor (pixel s.memory r c) (spriteBit s.memory s.I x y n r c)) ∧
      ((∃ r < 32, ∃ c < 64,
          pixel s.memory r c = true ∧ spriteBit s.memory s.I x y n r c = true) →
        s'.V 0xF = 1) ∧
      ((¬ ∃ r < 32, ∃ c < 64,
          pixel s.memory r c = true ∧ spriteBit s.memory s.I x y n r c = true) →
        s'.V 0xF = 0) ∧
      (∀ a, ¬ inDisplay a → s'.memory a = s.memory a) := by
  obtain ⟨s', h1, inv⟩ := OpD_inv s x y n hwf.hmem hy hspr
  have inv' := inv.congr (fun r _ c _ => rowsDrawn_eq_spriteBit s.memory s.I x y n r c)
  refine ⟨s', h1, inv'.hpix, ?_, ?_, inv'.hout⟩
  · rintro ⟨r, hr, c, hc, hp, hs⟩
    exact inv'.hVF1 ⟨r, hr, c, hc, hs, hp⟩
  · intro hno
    apply inv'.hVF0
    rintro ⟨r, hr, c, hc, hs, hp⟩
    exact hno ⟨r, hr, c, hc, hp, hs⟩

/-- Instance of C8 at the state `drawDemo`, origin `(0, 0)`, height 1. -/
theorem draw_semantics_witness :
    ∃ s', OpD drawDemo 0 0 1 = some s' ∧
      (∀ r < 32, ∀ c < 64,
        pixel s'.memory r c =
          xor (pixel drawDemo.memory r c) (spriteBit drawDemo.memory drawDemo.I 0 0 1 r c)) ∧
      ((∃ r < 32, ∃ c < 64,
          pixel drawDemo.memory r c = true ∧
            spriteBit drawDemo.memory drawDemo.I 0 0 1 r c = true) →
        s'.V 0xF = 1) ∧
      ((¬ ∃ r < 32, ∃ c < 64,
          pixel drawDemo.memory r c = true ∧
            spriteBit drawDemo.memory drawDemo.I 0 0 1 r c = true) →
        s'.V 0xF = 0) ∧
      (∀ a, ¬ inDisplay a → s'.memory a = drawDemo.memory a) :=
  draw_semantics drawDemo 0 0 1 WF_drawDemo (by decide) (by decide)

/-! ## Key wait -/

/-- The key scan finds the lowest pressed key. -/
theorem scanKeys_found (s : Chip8State) (k : Nat) (hk : k < 0x10) (hdown : s.keys k ≠ 0) :
    ∀ fuel j, j ≤ k → k < fuel + j → (∀ k', j ≤ k' → k' < k → s.keys k' = 0) →
      scanKeys s fuel j = some k := by
  intro fuel
  induction fuel with
  | zero => intro j h1 h2; omega
  | succ fuel ih =>
    intro j h1 h2 hup
    have hj : j < 0x10 := by omega
    by_cases hjk : j = k
    · subst hjk
      simp only [scanKeys, if_pos hj, if_pos hdown]
    · have hz : ¬ (s.keys j ≠ 0) := by
        intro h
        exact h (hup j (Nat.le_refl j) (by omega))
      simp only [scanKeys, if_pos hj, if_neg hz]
      exact ih (j + 1) (by omega) (by omega) (fun k' h3 h4 => hup k' (by omega) h4)

/-- With no key pressed the key scan runs to 16. -/
theorem scanKeys_none (s : Chip8State) (hup : ∀ k < 0x10, s.keys k = 0) :
    ∀ fuel j, j ≤ 0x10 → 0x10 ≤ fuel + j → scanKeys s fuel j = some 0x10 := by
  intro fuel
  induction fuel with
  | zero =>
    intro j h1 h2
    have hj : j = 0x10 := by omega
    subst hj
    simp [scanKeys]
  | succ fuel ih =>
    intro j h1 h2
    by_cases hj : j < 0x10
    · have hz : ¬ (s.keys j ≠ 0) := by
        intro h
        exact h (hup j hj)
      simp only [scanKeys, if_pos hj, if_neg hz]
      exact ih (j + 1) (by omega) (by omega)
    · have hj : j = 0x10 := by omega
      subst hj
      simp [scanKeys]

/-- Fetch and decode of an `FXNN` word: the step is `OpF`. -/
theorem EmulateChip8_groupF (rnd : Nat) (s : Chip8State) (X lo : Nat) (hX : X < 16)
    (hi : InstrAt s (0xF0 + X) lo) :
    EmulateChip8 rnd s = OpF (tickTimers s) (0xF0 + X) lo := by
  obtain ⟨hpc, h0, h1⟩ := hi
  have hpc0 : s.PC < MEMORY_CAPACITY := by omega
  have hn : ((0xF0 + X) &&& 0xF0) >>> 4 = 15 := by
    rw [byte_hi_nibble _ (by omega)]; omega
  simp [EmulateChip8, readMem, hpc, hpc0, h0, h1, hn]

/-- A step of `FX0A` with the flag set and no key pressed changes only the
timers. -/
theorem key_wait_idle (rnd : Nat) (s : Chip8State) (X : Nat) (hX : X < 16)
    (hinstr : InstrAt s (0xF0 + X) 0x0A) (hflag : s.awaitingKey ≠ 0)
    (hup : ∀ k < 0x10, s.keys k = 0) :
    EmulateChip8 rnd s = some (tickTimers s) := by
  rw [EmulateChip8_groupF rnd s X _ hX hinstr]
  have hscan : scanKeys (tickTimers s) 17 0 = some 0x10 :=
    scanKeys_none (tickTimers s) hup 17 0 (by omega) (by omega)
  simp [OpF, hflag, hscan]

/-- Any number of `FX0A` steps with the flag set and no key pressed. -/
theorem key_wait_idle_steps (s : Chip8State) (X : Nat) (hX : X < 16) :
    ∀ (rnds : List Nat) (s1 : Chip8State), s1.PC = s.PC → s1.memory = s.memory →
      s1.keys = s.keys → s1.awaitingKey = s.awaitingKey → s1.V = s.V →
      InstrAt s (0xF0 + X) 0x0A → s.awaitingKey ≠ 0 → (∀ k < 0x10, s.keys k = 0) →
      ∃ s', EmulateSteps rnds s1 = some s' ∧ s'.PC = s.PC ∧ s'.memory = s.memory ∧
        s'.keys = s.keys ∧ s'.awaitingKey = s.awaitingKey ∧ s'.V = s.V := by
  intro rnds
  induction rnds with
  | nil =>
    intro s1 h1 h2 h3 h4 h5 _ _ _
    exact ⟨s1, rfl, h1, h2, h3, h4, h5⟩
  | cons rnd rest ih =>
    intro s1 h1 h2 h3 h4 h5 hinstr hflag hup
    have hinstr1 : InstrAt s1 (0xF0 + X) 0x0A := by
      unfold InstrAt at *
      rw [h1, h2]; exact hinstr
    have hstep := key_wait_idle rnd s1 X hX hinstr1 (by rw [h4]; exact hflag)
      (by rw [h3]; exact hup)
    obtain ⟨s', hs', hres⟩ := ih (tickTimers s1) h1 h2 h3 h4 h5 hinstr hflag hup
    exact ⟨s', by simp only [EmulateSteps, hstep, Option.some_bind, hs'], hres⟩

/-- C9: with `FX0A` at `PC`: (1) if the awaiting-key flag is clear, a step sets
it and leaves `PC` and `VX` unchanged, whatever the key states; (2) if the flag
is set and no key is pressed, any number of steps leave `PC` unchanged and the
flag set; (3) if the flag is set and `k` is the lowest pressed key, a step
stores `k` in `VX`, clears the flag and advances `PC` by 2. -/
theorem key_wait_protocol (s : Chip8State) (X : Nat) (hX : X < 16)
    (hinstr : InstrAt s (0xF0 + X) 0x0A) :
    (s.awaitingKey = 0 → ∀ rnd, ∃ s', EmulateChip8 rnd s = some s' ∧
      s'.awaitingKey = 1 ∧ s'.PC = s.PC ∧ s'.V X = s.V X) ∧
    (s.awaitingKey ≠ 0 → (∀ k < 0x10, s.keys k = 0) → ∀ rnds : List Nat,
      ∃ s', EmulateSteps rnds s = some s' ∧ s'.PC = s.PC ∧ s'.awaitingKey ≠ 0) ∧
    (s.awaitingKey ≠ 0 → ∀ k < 0x10, s.keys k ≠ 0 → (∀ k' < k, s.keys k' = 0) →
      ∀ rnd, ∃ s', EmulateChip8 rnd s = some s' ∧
        s'.V X = k ∧ s'.awaitingKey = 0 ∧ s'.PC = s.PC + 2) := by
  have hx : (0xF0 + X) &&& 0x0f = X := by rw [byte_lo_nibble _ (by omega)]; omega
  refine ⟨?_, ?_, ?_⟩
  · intro hflag rnd
    rw [EmulateChip8_groupF rnd s X _ hX hinstr]
    refine ⟨{ tickTimers s with awaitingKey := 1 }, ?_, rfl, rfl, rfl⟩
    simp [OpF, hflag]
  · intro hflag hup rnds
    obtain ⟨s', hs', hpc, _, _, hf, _⟩ :=
      key_wait_idle_steps s X hX rnds s rfl rfl rfl rfl rfl hinstr hflag hup
    exact ⟨s', hs', hpc, by rw [hf]; exact hflag⟩
  · intro hflag k hk hdown hlow rnd
    rw [EmulateChip8_groupF rnd s X _ hX hinstr]
    have hscan : scanKeys (tickTimers s) 17 0 = some k :=
      scanKeys_found (tickTimers s) k hk hdown 17 0 (Nat.zero_le k) (by omega)
        (fun k' _ h => hlow k' h)
    have hpc : (s.PC + 2) % 65536 = s.PC + 2 := by
      have := hinstr.1
      simp only [MEMORY_CAPACITY] at this
      omega
    refine ⟨{ setV (tickTimers s) X k with awaitingKey := 0, PC := s.PC + 2 }, ?_, ?_, rfl, rfl⟩
    · simp [OpF, hflag, hscan, hk, hx, hpc]
    · simp [setV]

/-- Instance of C9: `F30A` with the flag clear; with the flag set and no key
pressed, over two steps; with the flag set and keys 5 and 9 pressed. -/
theorem key_wait_protocol_witness :
    (∃ s', EmulateChip8 0 (keyState 0 (fun _ => 0)) = some s' ∧
      s'.awaitingKey = 1 ∧ s'.PC = (keyState 0 (fun _ => 0)).PC ∧
      s'.V 3 = (keyState 0 (fun _ => 0)).V 3) ∧
    (∃ s', EmulateSteps [0, 0] (keyState 1 (fun _ => 0)) = some s' ∧
      s'.PC = (keyState 1 (fun _ => 0)).PC ∧ s'.awaitingKey ≠ 0) ∧
    (∃ s', EmulateChip8 0 (keyState 1 (fun k => if k = 5 ∨ k = 9 then 1 else 0)) = some s' ∧
      s'.V 3 = 5 ∧ s'.awaitingKey = 0 ∧
      s'.PC = (keyState 1 (fun k => if k = 5 ∨ k = 9 then 1 else 0)).PC + 2) :=
  ⟨(key_wait_protocol (keyState 0 (fun _ => 0)) 3 (by decide)
      ⟨by decide, by decide, by decide⟩).1 (by decide) 0,
   (key_wait_protocol (keyState 1 (fun _ => 0)) 3 (by decide)
      ⟨by decide, by decide, by decide⟩).2.1 (by decide) (by decide) [0, 0],
   (key_wait_protocol (keyState 1 (fun k => if k = 5 ∨ k = 9 then 1 else 0)) 3 (by decide)
      ⟨by decide, by decide, by decide⟩).2.2 (by decide) 5 (by decide) (by decide) (by decide) 0⟩

/-! ## Scenario: load, load, add -/

/-- C10: from the initial state with `60 0A 61 05 80 14` at `0x200`, three
steps succeed and leave `V0 = 15`, `V1 = 5`, `VF = 0` and `PC = 0x206`. -/
theorem scenario_load_load_add (r1 r2 r3 : Nat) :
    ∃ s', EmulateSteps [r1, r2, r3] addProgram = some s' ∧
      s'.V 0 = 15 ∧ s'.V 1 = 5 ∧ s'.V 0xF = 0 ∧ s'.PC = 0x206 :=
  ⟨_, rfl, rfl, rfl, rfl, rfl⟩

/-! ## Scenario: draw glyph 0 -/

/-- C11 as stated fails: after four steps of `A2 00 60 00 61 00 D0 15` the
display does not hold the glyph `F0 90 90 90 F0`; its first byte is `0xA2`. -/
theorem scenario_draw_glyph_fails :
    ¬ ∃ s', EmulateSteps [0, 0, 0, 0] glyphProgram = some s' ∧
      s'.memory 0xF00 = 0xF0 ∧ s'.memory 0xF08 = 0x90 ∧ s'.memory 0xF10 = 0x90 ∧
      s'.memory 0xF18 = 0x90 ∧ s'.memory 0xF20 = 0xF0 ∧ s'.V 0xF = 0 := by
  rintro ⟨s', h, h0, -⟩
  have e : (EmulateSteps [0, 0, 0, 0] glyphProgram).map (fun t => t.memory 0xF00) = some 0xA2 := by
    decide
  rw [h] at e
  simp [h0] at e

/-- C11, amended: the four steps succeed; `A200` sets `I = 0x200`, so the five
rows drawn are the bytes at `0x200 .. 0x204`, the program's own first bytes
`A2 00 60 00 61`, and `VF = 0`.  With `A000` as first instruction (`I = 0`, the
address of the glyph table) the rows are the glyph `F0 90 90 90 F0`. -/
theorem scenario_draw_program_bytes (r1 r2 r3 r4 : Nat) :
    (∃ s', EmulateSteps [r1, r2, r3, r4] glyphProgram = some s' ∧
      s'.I = 0x200 ∧
      s'.memory 0xF00 = 0xA2 ∧ s'.memory 0xF08 = 0x00 ∧ s'.memory 0xF10 = 0x60 ∧
      s'.memory 0xF18 = 0x00 ∧ s'.memory 0xF20 = 0x61 ∧ s'.V 0xF = 0) ∧
    (∃ s', EmulateSteps [r1, r2, r3, r4] glyphProgramAtFont = some s' ∧
      s'.I = 0x000 ∧
      s'.memory 0xF00 = 0xF0 ∧ s'.memory 0xF08 = 0x90 ∧ s'.memory 0xF10 = 0x90 ∧
      s'.memory 0xF18 = 0x90 ∧ s'.memory 0xF20 = 0xF0 ∧ s'.V 0xF = 0) :=
  ⟨⟨_, rfl, rfl, rfl, rfl, rfl, rfl, rfl, rfl⟩, ⟨_, rfl, rfl, rfl, rfl, rfl, rfl, rfl, rfl⟩⟩

/-! ## Shifts (`8XY6`, `8XYE`) -/

set_option maxRecDepth 20000 in
/-- The two shifts of `Op8` on a byte. -/
theorem shift_byte : ∀ a < 256,
    a &&& 0b1 = a % 2 ∧ (a >>> 1) &&& 0x7F = a / 2 ∧
    a &&& 0b10000000 = (if a ≥ 128 then 0x80 else 0) ∧ (a <<< 1) &&& 0xFE = (2 * a) % 256 := by
  decide

/-- C13: an `8XY6` step with `X ≠ 0xF` leaves `VF = a mod 2` and
`VX = a / 2`, where `a` is the value of `VX` before the step; `VY` does not
occur in the result. -/
theorem right_shift (rnd : Nat) (s : Chip8State) (X Y : Nat) (hwf : WF s)
    (hX : X < 15) (hY : Y < 16) (hi : InstrAt s (0x80 + X) (0x10 * Y + 0x6)) :
    ∃ s', EmulateChip8 rnd s = some s' ∧ s'.V 0xF = s.V X % 2 ∧ s'.V X = s.V X / 2 := by
  refine ⟨_, EmulateChip8_group8 rnd s X _ (by omega) hi, ?_⟩
  obtain ⟨hx, hy, hn⟩ := group8_fields X Y 6 (by omega) hY (by omega)
  obtain ⟨h1, h2, -, -⟩ := shift_byte (s.V X) (hwf.hV X)
  have hXF : X ≠ 15 := by omega
  have hFX : ¬ (15 = X) := by omega
  simp only [Op8, hx, hy, hn, setV, tickTimers_V]
  simp only [if_true, if_neg hXF, if_neg hFX, h1, h2, and_self]

/-- Instance of C13 at `V1 = 5`, instruction `8126`. -/
theorem right_shift_witness :
    ∃ s', EmulateChip8 0 (regState 0x81 0x26 1 5 2 0) = some s' ∧
      s'.V 0xF = (regState 0x81 0x26 1 5 2 0).V 1 % 2 ∧
      s'.V 1 = (regState 0x81 0x26 1 5 2 0).V 1 / 2 :=
  right_shift 0 (regState 0x81 0x26 1 5 2 0) 1 2
    (WF_regState _ _ _ _ _ _ (by decide) (by decide) (by decide) (by decide))
    (by decide) (by decide) ⟨by decide, by decide, by decide⟩

/-- C14: an `8XYE` step with `X ≠ 0xF` leaves `VX = (2 a) mod 256` and
`VF = 0x80` if `a ≥ 128`, `VF = 0` otherwise, so `VF` is never 1; `VY` does not
occur in the result. -/
theorem left_shift (rnd : Nat) (s : Chip8State) (X Y : Nat) (hwf : WF s)
    (hX : X < 15) (hY : Y < 16) (hi : InstrAt s (0x80 + X) (0x10 * Y + 0xE)) :
    ∃ s', EmulateChip8 rnd s = some s' ∧ s'.V X = (2 * s.V X) % 256 ∧
      s'.V 0xF = (if s.V X ≥ 128 then 0x80 else 0) ∧ s'.V 0xF ≠ 1 := by
  refine ⟨_, EmulateChip8_group8 rnd s X _ (by omega) hi, ?_⟩
  obtain ⟨hx, hy, hn⟩ := group8_fields X Y 0xE (by omega) hY (by omega)
  obtain ⟨-, -, h3, h4⟩ := shift_byte (s.V X) (hwf.hV X)
  have hXF : X ≠ 15 := by omega
  have hFX : ¬ (15 = X) := by omega
  simp only [Op8, hx, hy, hn, setV, tickTimers_V]
  simp only [if_true, if_neg hXF, if_neg hFX, h3, h4, true_and]
  split <;> simp

/-- Instance of C14 at `V1 = 200`, instruction `812E`. -/
theorem left_shift_witness :
    ∃ s', EmulateChip8 0 (regState 0x81 0x2E 1 200 2 0) = some s' ∧
      s'.V 1 = (2 * (regState 0x81 0x2E 1 200 2 0).V 1) % 256 ∧
      s'.V 0xF = (if (regState 0x81 0x2E 1 200 2 0).V 1 ≥ 128 then 0x80 else 0) ∧
      s'.V 0xF ≠ 1 :=
  left_shift 0 (regState 0x81 0x2E 1 200 2 0) 1 2
    (WF_regState _ _ _ _ _ _ (by decide) (by decide) (by decide) (by decide))
    (by decide) (by decide) ⟨by decide, by decide, by decide⟩

/-! ## Clear screen, call and conditional skips -/

/-- C15: a `00E0` step zeroes `memory[0xF00 .. 0xFFF]`, leaves memory below
`0xF00`, the registers, `I` and `SP` unchanged and advances `PC` by 2. -/
theorem clear_screen (rnd : Nat) (s : Chip8State) (hi : InstrAt s 0x00 0xE0) :
    ∃ s', EmulateChip8 rnd s = some s' ∧
      (∀ a, 0xF00 ≤ a → a ≤ 0xFFF → s'.memory a = 0) ∧
      (∀ a, a < 0xF00 → s'.memory a = s.memory a) ∧
      s'.V = s.V ∧ s'.I = s.I ∧ s'.SP = s.SP ∧ s'.PC = s.PC + 2 := by
  obtain ⟨hpc, h0, h1⟩ := hi
  have hpc0 : s.PC < MEMORY_CAPACITY := by omega
  have hpc2 : (s.PC + 2) % 65536 = s.PC + 2 := by
    simp only [MEMORY_CAPACITY] at hpc; omega
  refine ⟨{ tickTimers s with
      memory := fun a =>
        if DISPLAY_BUFFER ≤ a ∧ a < DISPLAY_BUFFER + 256 then 0 else s.memory a
      PC := s.PC + 2 }, ?_, ?_, ?_, rfl, rfl, rfl, rfl⟩
  · simp [EmulateChip8, readMem, hpc, hpc0, h0, h1, Op0, hpc2]
  · intro a ha hb
    have : DISPLAY_BUFFER ≤ a ∧ a < DISPLAY_BUFFER + 256 := by
      simp only [DISPLAY_BUFFER]; omega
    simp only [if_pos this]
  · intro a ha
    have : ¬ (DISPLAY_BUFFER ≤ a ∧ a < DISPLAY_BUFFER + 256) := by
      simp only [DISPLAY_BUFFER]; omega
    simp only [if_neg this]

/-- Instance of C15 at the state `clearDemo`. -/
theorem clear_screen_witness :
    ∃ s', EmulateChip8 0 clearDemo = some s' ∧
      (∀ a, 0xF00 ≤ a → a ≤ 0xFFF → s'.memory a = 0) ∧
      (∀ a, a < 0xF00 → s'.memory a = clearDemo.memory a) ∧
      s'.V = clearDemo.V ∧ s'.I = clearDemo.I ∧ s'.SP = clearDemo.SP ∧
      s'.PC = clearDemo.PC + 2 :=
  clear_screen 0 clearDemo ⟨by decide, by decide, by decide⟩

/-- C16: a `2NNN` step at `PC = p ≤ 4094` with `2 ≤ SP ≤ 4096` lowers `SP` by
2, stores the high and low byte of `p + 2` at the new `SP` and `SP + 1`, sets
`PC = NNN` and leaves every other memory byte and every register unchanged. -/
theorem call_pushes_return_address (rnd : Nat) (s : Chip8State) (hi lo : Nat)
    (hp : s.PC ≤ 4094) (hsp : 2 ≤ s.SP) (hsp' : s.SP ≤ 4096)
    (hhi : hi < 16) (hlo : lo < 256) (hinstr : InstrAt s (0x20 + hi) lo) :
    ∃ s', EmulateChip8 rnd s = some s' ∧
      s'.SP + 2 = s.SP ∧
      s'.memory s'.SP = (s.PC + 2) / 256 ∧
      s'.memory (s'.SP + 1) = (s.PC + 2) % 256 ∧
      s'.PC = 256 * hi + lo ∧
      (∀ a, a ≠ s'.SP → a ≠ s'.SP + 1 → s'.memory a = s.memory a) ∧
      s'.V = s.V := by
  refine ⟨_, EmulateChip8_call rnd s hi lo hhi hlo hsp hsp' hinstr, ?_, ?_, ?_, rfl, ?_, rfl⟩
  · show s.SP - 2 + 2 = s.SP
    omega
  · show (if s.SP - 2 = s.SP - 2 + 1 then _ else if s.SP - 2 = s.SP - 2 then _ else _) = _
    rw [if_neg (by omega), if_pos rfl, hi_byte]
    omega
  · show (if s.SP - 2 + 1 = s.SP - 2 + 1 then _ else _) = _
    rw [if_pos rfl, and_FF]
  · intro a h1 h2
    show (if a = s.SP - 2 + 1 then _ else if a = s.SP - 2 then _ else _) = _
    rw [if_neg h2, if_neg h1]

/-- Instance of C16: `CALL 0x204` at `0x200` with `SP = 0xEA0`. -/
theorem call_pushes_return_address_witness :
    ∃ s', EmulateChip8 0 callDemo = some s' ∧
      s'.SP + 2 = callDemo.SP ∧
      s'.memory s'.SP = (callDemo.PC + 2) / 256 ∧
      s'.memory (s'.SP + 1) = (callDemo.PC + 2) % 256 ∧
      s'.PC = 256 * 2 + 4 ∧
      (∀ a, a ≠ s'.SP → a ≠ s'.SP + 1 → s'.memory a = callDemo.memory a) ∧
      s'.V = callDemo.V :=
  call_pushes_return_address 0 callDemo 2 4 (by decide) (by decide) (by decide) (by decide)
    (by decide) ⟨by decide, by decide, by decide⟩

/-- The two outcomes of a skip: `PC` advances by 4 or by 2, nothing else but
the timers changes. -/
theorem skip_result (s : Chip8State) (c : Prop) [Decidable c] (hpc : s.PC + 1 < MEMORY_CAPACITY) :
    ∃ s', some { (if c then { tickTimers s with PC := ((tickTimers s).PC + 2) % 65536 }
          else tickTimers s) with
        PC := ((if c then { tickTimers s with PC := ((tickTimers s).PC + 2) % 65536 }
          else tickTimers s).PC + 2) % 65536 } = some s' ∧
      s'.PC = s.PC + (if c then 4 else 2) ∧
      s'.V = s.V ∧ s'.memory = s.memory ∧ s'.I = s.I ∧ s'.SP = s.SP := by
  simp only [MEMORY_CAPACITY] at hpc
  by_cases hc : c
  · refine ⟨_, rfl, ?_, ?_, ?_, ?_, ?_⟩ <;> simp only [if_pos hc, tickTimers_PC] <;> first | rfl | omega
  · refine ⟨_, rfl, ?_, ?_, ?_, ?_, ?_⟩ <;> simp only [if_neg hc, tickTimers_PC] <;> first | rfl | omega

/-- C17: a step of `3XNN`, `4XNN`, `5XY0` or `9XY0` advances `PC` by 4 if the
condition of the opcode holds on the registers before the step and by 2
otherwise, and leaves registers, memory, `I` and `SP` unchanged. -/
theorem conditional_skips (rnd : Nat) (s : Chip8State) (X Y NN : Nat)
    (hX : X < 16) (hY : Y < 16) :
    (InstrAt s (0x30 + X) NN →
      ∃ s', EmulateChip8 rnd s = some s' ∧
        s'.PC = s.PC + (if s.V X = NN then 4 else 2) ∧
        s'.V = s.V ∧ s'.memory = s.memory ∧ s'.I = s.I ∧ s'.SP = s.SP) ∧
    (InstrAt s (0x40 + X) NN →
      ∃ s', EmulateChip8 rnd s = some s' ∧
        s'.PC = s.PC + (if s.V X ≠ NN then 4 else 2) ∧
        s'.V = s.V ∧ s'.memory = s.memory ∧ s'.I = s.I ∧ s'.SP = s.SP) ∧
    (InstrAt s (0x50 + X) (0x10 * Y) →
      ∃ s', EmulateChip8 rnd s = some s' ∧
        s'.PC = s.PC + (if s.V X = s.V Y then 4 else 2) ∧
        s'.V = s.V ∧ s'.memory = s.memory ∧ s'.I = s.I ∧ s'.SP = s.SP) ∧
    (InstrAt s (0x90 + X) (0x10 * Y) →
      ∃ s', EmulateChip8 rnd s = some s' ∧
        s'.PC = s.PC + (if s.V X ≠ s.V Y then 4 else 2) ∧
        s'.V = s.V ∧ s'.memory = s.memory ∧ s'.I = s.I ∧ s'.SP = s.SP) := by
  have hy : ((0x10 * Y) &&& 0xF0) >>> 4 = Y := by
    rw [byte_hi_nibble _ (by omega)]; omega
  refine ⟨?_, ?_, ?_, ?_⟩
  · rintro ⟨hpc, h0, h1⟩
    have hpc0 : s.PC < MEMORY_CAPACITY := by omega
    have hg : ((0x30 + X) &&& 0xF0) >>> 4 = 3 := by rw [byte_hi_nibble _ (by omega)]; omega
    have hx : (0x30 + X) &&& 0x0F = X := by rw [byte_lo_nibble _ (by omega)]; omega
    obtain ⟨s', hs', hres⟩ := skip_result s (s.V X = NN) hpc
    refine ⟨s', ?_, hres⟩
    rw [← hs']
    simp [EmulateChip8, readMem, hpc, hpc0, h0, h1, hg, hx]
  · rintro ⟨hpc, h0, h1⟩
    have hpc0 : s.PC < MEMORY_CAPACITY := by omega
    have hg : ((0x40 + X) &&& 0xF0) >>> 4 = 4 := by rw [byte_hi_nibble _ (by omega)]; omega
    have hx : (0x40 + X) &&& 0x0F = X := by rw [byte_lo_nibble _ (by omega)]; omega
    obtain ⟨s', hs', hres⟩ := skip_result s (s.V X ≠ NN) hpc
    refine ⟨s', ?_, hres⟩
    rw [← hs']
    simp [EmulateChip8, readMem, hpc, hpc0, h0, h1, hg, hx]
  · rintro ⟨hpc, h0, h1⟩
    have hpc0 : s.PC < MEMORY_CAPACITY := by omega
    have hg : ((0x50 + X) &&& 0xF0) >>> 4 = 5 := by rw [byte_hi_nibble _ (by omega)]; omega
    have hx : (0x50 + X) &&& 0x0F = X := by rw [byte_lo_nibble _ (by omega)]; omega
    obtain ⟨s', hs', hres⟩ := skip_result s (s.V X = s.V Y) hpc
    refine ⟨s', ?_, hres⟩
    rw [← hs']
    simp [EmulateChip8, readMem, hpc, hpc0, h0, h1, hg, hx, hy]
  · rintro ⟨hpc, h0, h1⟩
    have hpc0 : s.PC < MEMORY_CAPACITY := by omega
    have hg : ((0x90 + X) &&& 0xF0) >>> 4 = 9 := by rw [byte_hi_nibble _ (by omega)]; omega
    have hx : (0x90 + X) &&& 0x0F = X := by rw [byte_lo_nibble _ (by omega)]; omega
    obtain ⟨s', hs', hres⟩ := skip_result s (s.V X ≠ s.V Y) hpc
    refine ⟨s', ?_, hres⟩
    rw [← hs']
    simp [EmulateChip8, readMem, hpc, hpc0, h0, h1, hg, hx, hy]

/-- Instance of C17: `3107` with `V1 = 7`, `4107` with `V1 = 7`, `5120` with
`V1 = V2 = 7`, and `9120` with `V1 = 7`, `V2 = 8`. -/
theorem conditional_skips_witness :
    (∃ s', EmulateChip8 0 (regState 0x31 0x07 1 7 2 0) = some s' ∧
      s'.PC = (regState 0x31 0x07 1 7 2 0).PC +
        (if (regState 0x31 0x07 1 7 2 0).V 1 = 0x07 then 4 else 2) ∧
      s'.V = (regState 0x31 0x07 1 7 2 0).V ∧ s'.memory = (regState 0x31 0x07 1 7 2 0).memory ∧
      s'.I = (regState 0x31 0x07 1 7 2 0).I ∧ s'.SP = (regState 0x31 0x07 1 7 2 0).SP) ∧
    (∃ s', EmulateChip8 0 (regState 0x41 0x07 1 7 2 0) = some s' ∧
      s'.PC = (regState 0x41 0x07 1 7 2 0).PC +
        (if (regState 0x41 0x07 1 7 2 0).V 1 ≠ 0x07 then 4 else 2) ∧
      s'.V = (regState 0x41 0x07 1 7 2 0).V ∧ s'.memory = (regState 0x41 0x07 1 7 2 0).memory ∧
      s'.I = (regState 0x41 0x07 1 7 2 0).I ∧ s'.SP = (regState 0x41 0x07 1 7 2 0).SP) ∧
    (∃ s', EmulateChip8 0 (regState 0x51 0x20 1 7 2 7) = some s' ∧
      s'.PC = (regState 0x51 0x20 1 7 2 7).PC +
        (if (regState 0x51 0x20 1 7 2 7).V 1 = (regState 0x51 0x20 1 7 2 7).V 2 then 4 else 2) ∧
      s'.V = (regState 0x51 0x20 1 7 2 7).V ∧ s'.memory = (regState 0x51 0x20 1 7 2 7).memory ∧
      s'.I = (regState 0x51 0x20 1 7 2 7).I ∧ s'.SP = (regState 0x51 0x20 1 7 2 7).SP) ∧
    (∃ s', EmulateChip8 0 (regState 0x91 0x20 1 7 2 8) = some s' ∧
      s'.PC = (regState 0x91 0x20 1 7 2 8).PC +
        (if (regState 0x91 0x20 1 7 2 8).V 1 ≠ (regState 0x91 0x20 1 7 2 8).V 2 then 4 else 2) ∧
      s'.V = (regState 0x91 0x20 1 7 2 8).V ∧ s'.memory = (regState 0x91 0x20 1 7 2 8).memory ∧
      s'.I = (regState 0x91 0x20 1 7 2 8).I ∧ s'.SP = (regState 0x91 0x20 1 7 2 8).SP) :=
  ⟨(conditional_skips 0 (regState 0x31 0x07 1 7 2 0) 1 2 0x07 (by decide) (by decide)).1
      ⟨by decide, by decide, by decide⟩,
   (conditional_skips 0 (regState 0x41 0x07 1 7 2 0) 1 2 0x07 (by decide) (by decide)).2.1
      ⟨by decide, by decide, by decide⟩,
   (conditional_skips 0 (regState 0x51 0x20 1 7 2 7) 1 2 0x07 (by decide) (by decide)).2.2.1
      ⟨by decide, by decide, by decide⟩,
   (conditional_skips 0 (regState 0x91 0x20 1 7 2 8) 1 2 0x07 (by decide) (by decide)).2.2.2
      ⟨by decide, by decide, by decide⟩⟩

/-! ## Register dump and load, binary-coded decimal -/

/-- The store loop of `FX55` entered at register `v`: registers `v .. X` are
copied to `memory[I + v .. I + X]`. -/
theorem regDump_eq (X : Nat) : ∀ (fuel v : Nat) (s : Chip8State),
    s.I + X < MEMORY_CAPACITY → X + 1 ≤ fuel + v →
    regDump X fuel v s = some { s with
      memory := fun a => if s.I + v ≤ a ∧ a ≤ s.I + X then s.V (a - s.I) else s.memory a } := by
  intro fuel
  induction fuel with
  | zero =>
    intro v s _ hf
    have hv : ¬ v ≤ X := by omega
    simp only [regDump, if_neg hv]
    congr 1
    show s = { s with memory := _ }
    have : (fun a => if s.I + v ≤ a ∧ a ≤ s.I + X then s.V (a - s.I) else s.memory a) = s.memory := by
      funext a
      rw [if_neg (by omega)]
    rw [this]
  | succ fuel ih =>
    intro v s hb hf
    by_cases hv : v ≤ X
    · have hw : s.I + v < MEMORY_CAPACITY := by omega
      simp only [regDump, if_pos hv, writeMem, if_pos hw, Option.some_bind]
      refine (ih (v + 1) _ (by exact hb) (by omega)).trans ?_
      congr 2
      funext a
      show (if s.I + (v + 1) ≤ a ∧ a ≤ s.I + X then s.V (a - s.I)
        else if a = s.I + v then s.V v else s.memory a) = _
      by_cases h1 : s.I + (v + 1) ≤ a ∧ a ≤ s.I + X
      · rw [if_pos h1, if_pos (by omega)]
      · rw [if_neg h1]
        by_cases h2 : a = s.I + v
        · rw [if_pos h2, if_pos (by omega), h2]
          congr 1; omega
        · rw [if_neg h2, if_neg (by omega)]
    · simp only [regDump, if_neg hv]
      congr 1
      show s = { s with memory := _ }
      have : (fun a => if s.I + v ≤ a ∧ a ≤ s.I + X then s.V (a - s.I) else s.memory a) = s.memory := by
        funext a
        rw [if_neg (by omega)]
      rw [this]

/-- The load loop of `FX65` entered at register `v`: registers `v .. X` are
read from `memory[I + v .. I + X]`. -/
theorem regLoad_eq (X : Nat) : ∀ (fuel v : Nat) (s : Chip8State),
    s.I + X < MEMORY_CAPACITY → X + 1 ≤ fuel + v →
    regLoad X fuel v s = some { s with
      V := fun k => if v ≤ k ∧ k ≤ X then s.memory (s.I + k) else s.V k } := by
  intro fuel
  induction fuel with
  | zero =>
    intro v s _ hf
    have hv : ¬ v ≤ X := by omega
    simp only [regLoad, if_neg hv]
    congr 1
    show s = { s with V := _ }
    have : (fun k => if v ≤ k ∧ k ≤ X then s.memory (s.I + k) else s.V k) = s.V := by
      funext k
      rw [if_neg (by omega)]
    rw [this]
  | succ fuel ih =>
    intro v s hb hf
    by_cases hv : v ≤ X
    · have hw : s.I + v < MEMORY_CAPACITY := by omega
      simp only [regLoad, if_pos hv, readMem, if_pos hw, Option.some_bind]
      refine (ih (v + 1) _ (by exact hb) (by omega)).trans ?_
      congr 2
      funext k
      show (if v + 1 ≤ k ∧ k ≤ X then s.memory (s.I + k)
        else if k = v then s.memory (s.I + v) else s.V k) = _
      by_cases h1 : v + 1 ≤ k ∧ k ≤ X
      · rw [if_pos h1, if_pos (by omega)]
      · rw [if_neg h1]
        by_cases h2 : k = v
        · rw [if_pos h2, if_pos (by omega), h2]
        · rw [if_neg h2, if_neg (by omega)]
    · simp only [regLoad, if_neg hv]
      congr 1
      show s = { s with V := _ }
      have : (fun k => if v ≤ k ∧ k ≤ X then s.memory (s.I + k) else s.V k) = s.V := by
        funext k
        rw [if_neg (by omega)]
      rw [this]

/-- The step of `FX55` as an explicit state. -/
theorem EmulateChip8_dump (rnd : Nat) (s : Chip8State) (X : Nat) (hX : X < 16)
    (hb : s.I + X ≤ 4095) (hi : InstrAt s (0xF0 + X) 0x55) :
    EmulateChip8 rnd s = some { tickTimers s with
      memory := fun a => if s.I + 0 ≤ a ∧ a ≤ s.I + X then s.V (a - s.I) else s.memory a
      I := s.I + X + 1
      PC := s.PC + 2 } := by
  have hx : (0xF0 + X) &&& 0x0f = X := by rw [byte_lo_nibble _ (by omega)]; omega
  have hpc : (s.PC + 2) % 65536 = s.PC + 2 := by
    have := hi.1
    simp only [MEMORY_CAPACITY] at this
    omega
  have hI : (s.I + (X + 1)) % 65536 = s.I + X + 1 := by omega
  have hd := regDump_eq X (X + 1) 0 (tickTimers s)
    (by simp only [tickTimers_I, MEMORY_CAPACITY]; omega) (by omega)
  rw [EmulateChip8_groupF rnd s X _ hX hi]
  simp only [OpF, hx]
  simp [hd, hpc, hI]

/-- The step of `FX65` as an explicit state. -/
theorem EmulateChip8_load (rnd : Nat) (s : Chip8State) (X : Nat) (hX : X < 16)
    (hb : s.I + X ≤ 4095) (hi : InstrAt s (0xF0 + X) 0x65) :
    EmulateChip8 rnd s = some { tickTimers s with
      V := fun k => if 0 ≤ k ∧ k ≤ X then s.memory (s.I + k) else s.V k
      I := s.I + X + 1
      PC := s.PC + 2 } := by
  have hx : (0xF0 + X) &&& 0x0f = X := by rw [byte_lo_nibble _ (by omega)]; omega
  have hpc : (s.PC + 2) % 65536 = s.PC + 2 := by
    have := hi.1
    simp only [MEMORY_CAPACITY] at this
    omega
  have hI : (s.I + (X + 1)) % 65536 = s.I + X + 1 := by omega
  have hd := regLoad_eq X (X + 1) 0 (tickTimers s)
    (by simp only [tickTimers_I, MEMORY_CAPACITY]; omega) (by omega)
  rw [EmulateChip8_groupF rnd s X _ hX hi]
  simp only [OpF, hx]
  simp [hd, hpc, hI]

/-- C18: an `FX55` step with `I + X ≤ 4095` stores `Vk` at `memory[I + k]` for
`k ≤ X`, leaves every other memory byte and every register unchanged, sets the
index register to `I + X + 1` and advances `PC` by 2. -/
theorem register_dump (rnd : Nat) (s : Chip8State) (X : Nat) (hX : X < 16)
    (hb : s.I + X ≤ 4095) (hi : InstrAt s (0xF0 + X) 0x55) :
    ∃ s', EmulateChip8 rnd s = some s' ∧
      (∀ k, k ≤ X → s'.memory (s.I + k) = s.V k) ∧
      (∀ a, (a < s.I ∨ s.I + X < a) → s'.memory a = s.memory a) ∧
      s'.V = s.V ∧ s'.I = s.I + X + 1 ∧ s'.PC = s.PC + 2 := by
  refine ⟨_, EmulateChip8_dump rnd s X hX hb hi, ?_, ?_, rfl, rfl, rfl⟩
  · intro k hk
    show (if s.I + 0 ≤ s.I + k ∧ s.I + k ≤ s.I + X then s.V (s.I + k - s.I) else _) = _
    rw [if_pos (by omega)]
    congr 1; omega
  · intro a ha
    show (if s.I + 0 ≤ a ∧ a ≤ s.I + X then _ else s.memory a) = _
    rw [if_neg (by omega)]

/-- Instance of C18: `F255` with `I = 0x300`. -/
theorem register_dump_witness :
    ∃ s', EmulateChip8 0 dumpDemo = some s' ∧
      (∀ k, k ≤ 2 → s'.memory (dumpDemo.I + k) = dumpDemo.V k) ∧
      (∀ a, (a < dumpDemo.I ∨ dumpDemo.I + 2 < a) → s'.memory a = dumpDemo.memory a) ∧
      s'.V = dumpDemo.V ∧ s'.I = dumpDemo.I + 2 + 1 ∧ s'.PC = dumpDemo.PC + 2 :=
  register_dump 0 dumpDemo 2 (by decide) (by decide) ⟨by decide, by decide, by decide⟩

/-- C19: after an `FX55` step with `I = A`, `A + X ≤ 4095`, take any state `s2`
with the memory left by the dump, `I = A` again, arbitrary registers, and
`FX65` at its `PC`: the `FX65` step restores `V0 .. VX` to their values before
the dump and leaves the registers above `X` as they are in `s2`. -/
theorem dump_load_inverse (r1 r2 : Nat) (s : Chip8State) (X : Nat) (hX : X < 16)
    (hb : s.I + X ≤ 4095) (hi : InstrAt s (0xF0 + X) 0x55) :
    ∃ s1, EmulateChip8 r1 s = some s1 ∧
      ∀ s2 : Chip8State, s2.memory = s1.memory → s2.I = s.I → InstrAt s2 (0xF0 + X) 0x65 →
        ∃ s3, EmulateChip8 r2 s2 = some s3 ∧
          (∀ k, k ≤ X → s3.V k = s.V k) ∧ (∀ k, X < k → s3.V k = s2.V k) := by
  refine ⟨_, EmulateChip8_dump r1 s X hX hb hi, ?_⟩
  intro s2 hmem hI hi2
  refine ⟨_, EmulateChip8_load r2 s2 X hX (by rw [hI]; exact hb) hi2, ?_, ?_⟩
  · intro k hk
    show (if 0 ≤ k ∧ k ≤ X then s2.memory (s2.I + k) else _) = _
    rw [if_pos (by omega), hmem, hI]
    show (if s.I + 0 ≤ s.I + k ∧ s.I + k ≤ s.I + X then s.V (s.I + k - s.I) else _) = _
    rw [if_pos (by omega)]
    congr 1; omega
  · intro k hk
    show (if 0 ≤ k ∧ k ≤ X then _ else s2.V k) = _
    rw [if_neg (by omega)]

/-- Instance of C19: `F255` then, with all registers zeroed and `I` reset to
`0x300`, `F265`. -/
theorem dump_load_inverse_witness :
    ∃ s1, EmulateChip8 0 dumpDemo = some s1 ∧
      ∃ s3, EmulateChip8 0 { s1 with I := dumpDemo.I, V := fun _ => 0 } = some s3 ∧
        (∀ k, k ≤ 2 → s3.V k = dumpDemo.V k) ∧ (∀ k, 2 < k → s3.V k = 0) := by
  obtain ⟨s1, h1, h2⟩ := dump_load_inverse 0 0 dumpDemo 2 (by decide) (by decide)
    ⟨by decide, by decide, by decide⟩
  have e : (EmulateChip8 0 dumpDemo).map (fun t => (t.PC, t.memory 0x202, t.memory 0x203)) =
      some (0x202, 0xF2, 0x65) := by decide
  rw [h1] at e
  simp only [Option.map_some', Option.some.injEq, Prod.mk.injEq] at e
  obtain ⟨e1, e2, e3⟩ := e
  refine ⟨s1, h1, h2 { s1 with I := dumpDemo.I, V := fun _ => 0 } rfl rfl ⟨?_, ?_, ?_⟩⟩
  · show s1.PC + 1 < MEMORY_CAPACITY
    rw [e1]; decide
  · show s1.memory s1.PC = _
    rw [e1, e2]
  · show s1.memory (s1.PC + 1) = _
    rw [e1, e3]

/-- C20: an `FX33` step with `I + 2 ≤ 4095` stores the hundreds, tens and ones
digits of `VX` at `memory[I]`, `memory[I + 1]`, `memory[I + 2]`: each is at
most 9 and they recombine to `VX`; no other memory byte and no register
changes. -/
theorem bcd_digits (rnd : Nat) (s : Chip8State) (X : Nat) (hwf : WF s) (hX : X < 16)
    (hb : s.I + 2 ≤ 4095) (hi : InstrAt s (0xF0 + X) 0x33) :
    ∃ s', EmulateChip8 rnd s = some s' ∧
      s'.memory s.I ≤ 9 ∧ s'.memory (s.I + 1) ≤ 9 ∧ s'.memory (s.I + 2) ≤ 9 ∧
      100 * s'.memory s.I + 10 * s'.memory (s.I + 1) + s'.memory (s.I + 2) = s.V X ∧
      s'.memory s.I = s.V X / 100 ∧ s'.memory (s.I + 1) = s.V X / 10 % 10 ∧
      s'.memory (s.I + 2) = s.V X % 10 ∧
      (∀ a, a ≠ s.I → a ≠ s.I + 1 → a ≠ s.I + 2 → s'.memory a = s.memory a) ∧
      s'.V = s.V := by
  have hx : (0xF0 + X) &&& 0x0f = X := by rw [byte_lo_nibble _ (by omega)]; omega
  have hv := hwf.hV X
  have h0 : s.I < MEMORY_CAPACITY := by simp only [MEMORY_CAPACITY]; omega
  have h1 : s.I + 1 < MEMORY_CAPACITY := by simp only [MEMORY_CAPACITY]; omega
  have h2 : s.I + 2 < MEMORY_CAPACITY := by simp only [MEMORY_CAPACITY]; omega
  refine ⟨{ tickTimers s with
      memory := fun b => if b = s.I + 2 then s.V X % 10
        else if b = s.I + 1 then s.V X / 10 % 10
        else if b = s.I then s.V X / 10 / 10 else s.memory b
      PC := (s.PC + 2) % 65536 }, ?_, ?_⟩
  · rw [EmulateChip8_groupF rnd s X _ hX hi]
    simp only [OpF, hx]
    simp [writeMem, h0, h1, h2]
  · have e0 : ¬ (s.I = s.I + 2) := by omega
    have e1 : ¬ (s.I = s.I + 1) := by omega
    have e2 : ¬ (s.I + 1 = s.I + 2) := by omega
    simp only [if_neg e0, if_neg e1, if_neg e2, if_true]
    refine ⟨by omega, by omega, by omega, by omega, by omega, by trivial, by trivial, ?_,
      by trivial⟩
    intro a a0 a1 a2
    rw [if_neg a2, if_neg a1, if_neg a0]

/-- Instance of C20: `F133` with `V1 = 234` and `I = 0x300`. -/
theorem bcd_digits_witness :
    ∃ s', EmulateChip8 0 bcdDemo = some s' ∧
      s'.memory bcdDemo.I ≤ 9 ∧ s'.memory (bcdDemo.I + 1) ≤ 9 ∧ s'.memory (bcdDemo.I + 2) ≤ 9 ∧
      100 * s'.memory bcdDemo.I + 10 * s'.memory (bcdDemo.I + 1) + s'.memory (bcdDemo.I + 2)
        = bcdDemo.V 1 ∧
      s'.memory bcdDemo.I = bcdDemo.V 1 / 100 ∧ s'.memory (bcdDemo.I + 1) = bcdDemo.V 1 / 10 % 10 ∧
      s'.memory (bcdDemo.I + 2) = bcdDemo.V 1 % 10 ∧
      (∀ a, a ≠ bcdDemo.I → a ≠ bcdDemo.I + 1 → a ≠ bcdDemo.I + 2 →
        s'.memory a = bcdDemo.memory a) ∧
      s'.V = bcdDemo.V :=
  bcd_digits 0 bcdDemo 1
    (WF_withI _ _ (WF_regState _ _ _ _ _ _ (by decide) (by decide) (by decide) (by decide))
      (by decide))
    (by decide) (by decide) ⟨by decide, by decide, by decide⟩

/-! ## Timers -/

/-- A store into memory leaves the timers alone. -/
theorem writeMem_timers {s s' : Chip8State} {a v : Nat} (h : writeMem s a v = some s') :
    s'.delay = s.delay ∧ s'.sound = s.sound := by
  unfold writeMem at h
  split at h
  · cases h; exact ⟨rfl, rfl⟩
  · cases h

/-- One pass through the body of the inner draw loop leaves the timers alone. -/
theorem OpD_bit_timers {s s' : Chip8State} {y i j sb : Nat} (h : OpD_bit y i j sb s = some s') :
    s'.delay = s.delay ∧ s'.sound = s.sound := by
  simp only [OpD_bit, Option.bind_eq_bind, Option.bind_eq_some] at h
  obtain ⟨sprite, -, h⟩ := h
  split at h
  · simp only [Option.bind_eq_some] at h
    obtain ⟨d, -, h⟩ := h
    have := writeMem_timers h
    split at this <;> exact this
  · cases h; exact ⟨rfl, rfl⟩

/-- The inner draw loop leaves the timers alone. -/
theorem OpD_cols_timers (x y i : Nat) : ∀ (fuel j sb : Nat) (s s' : Chip8State),
    OpD_cols x y i fuel j sb s = some s' → s'.delay = s.delay ∧ s'.sound = s.sound := by
  intro fuel
  induction fuel with
  | zero =>
    intro j sb s s' h
    simp only [OpD_cols] at h
    split at h
    · cases h
    · cases h; exact ⟨rfl, rfl⟩
  | succ fuel ih =>
    intro j sb s s' h
    simp only [OpD_cols] at h
    split at h
    · simp only [Option.bind_eq_some] at h
      obtain ⟨s1, h1, h2⟩ := h
      obtain ⟨a1, a2⟩ := OpD_bit_timers h1
      obtain ⟨b1, b2⟩ := ih _ _ _ _ h2
      exact ⟨b1.trans a1, b2.trans a2⟩
    · cases h; exact ⟨rfl, rfl⟩

/-- The outer draw loop leaves the timers alone. -/
theorem OpD_rows_timers (x y n : Nat) : ∀ (fuel i : Nat) (s s' : Chip8State),
    OpD_rows x y n fuel i s = some s' → s'.delay = s.delay ∧ s'.sound = s.sound := by
  intro fuel
  induction fuel with
  | zero =>
    intro i s s' h
    simp only [OpD_rows] at h
    split at h
    · cases h
    · cases h; exact ⟨rfl, rfl⟩
  | succ fuel ih =>
    intro i s s' h
    simp only [OpD_rows] at h
    split at h
    · simp only [Option.bind_eq_some] at h
      obtain ⟨s1, h1, h2⟩ := h
      obtain ⟨a1, a2⟩ := OpD_cols_timers x y i _ _ _ _ _ h1
      obtain ⟨b1, b2⟩ := ih _ _ _ h2
      exact ⟨b1.trans a1, b2.trans a2⟩
    · cases h; exact ⟨rfl, rfl⟩

/-- The store loop of `FX55` leaves the timers alone. -/
theorem regDump_timers (X : Nat) : ∀ (fuel v : Nat) (s s' : Chip8State),
    regDump X fuel v s = some s' → s'.delay = s.delay ∧ s'.sound = s.sound := by
  intro fuel
  induction fuel with
  | zero =>
    intro v s s' h
    simp only [regDump] at h
    split at h
    · cases h
    · cases h; exact ⟨rfl, rfl⟩
  | succ fuel ih =>
    intro v s s' h
    simp only [regDump] at h
    split at h
    · simp only [Option.bind_eq_some] at h
      obtain ⟨s1, h1, h2⟩ := h
      obtain ⟨a1, a2⟩ := writeMem_timers h1
      obtain ⟨b1, b2⟩ := ih _ _ _ h2
      exact ⟨b1.trans a1, b2.trans a2⟩
    · cases h; exact ⟨rfl, rfl⟩

/-- The load loop of `FX65` leaves the timers alone. -/
theorem regLoad_timers (X : Nat) : ∀ (fuel v : Nat) (s s' : Chip8State),
    regLoad X fuel v s = some s' → s'.delay = s.delay ∧ s'.sound = s.sound := by
  intro fuel
  induction fuel with
  | zero =>
    intro v s s' h
    simp only [regLoad] at h
    split at h
    · cases h
    · cases h; exact ⟨rfl, rfl⟩
  | succ fuel ih =>
    intro v s s' h
    simp only [regLoad] at h
    split at h
    · simp only [Option.bind_eq_some] at h
      obtain ⟨b, -, h2⟩ := h
      have := ih _ _ _ h2
      exact this
    · cases h; exact ⟨rfl, rfl⟩

/-- `Op0` leaves the timers alone. -/
theorem Op0_timers {s s' : Chip8State} {i1 : Nat} (h : Op0 s i1 = some s') :
    s'.delay = s.delay ∧ s'.sound = s.sound := by
  unfold Op0 at h
  split at h
  · cases h; exact ⟨rfl, rfl⟩
  · split at h
    · simp only [Option.bind_eq_bind, Option.bind_eq_some] at h
      obtain ⟨hi, -, lo, -, h⟩ := h
      cases h; exact ⟨rfl, rfl⟩
    · cases h; exact ⟨rfl, rfl⟩

/-- `OpE` leaves the timers alone. -/
theorem OpE_timers {s s' : Chip8State} {i0 i1 : Nat} (h : OpE s i0 i1 = some s') :
    s'.delay = s.delay ∧ s'.sound = s.sound := by
  unfold OpE at h
  simp only at h
  split at h
  · simp only [Option.bind_eq_bind, Option.bind_eq_some] at h
    obtain ⟨k, -, h⟩ := h
    cases h
    split <;> exact ⟨rfl, rfl⟩
  · split at h
    · simp only [Option.bind_eq_bind, Option.bind_eq_some] at h
      obtain ⟨k, -, h⟩ := h
      cases h
      split <;> exact ⟨rfl, rfl⟩
    · cases h; exact ⟨rfl, rfl⟩

/-- `OpF` changes the delay timer only in `FX15` and the sound timer only in
`FX18`. -/
theorem OpF_timers {s s' : Chip8State} {i0 i1 : Nat} (h : OpF s i0 i1 = some s') :
    (i1 ≠ 0x15 → s'.delay = s.delay) ∧ (i1 ≠ 0x18 → s'.sound = s.sound) := by
  unfold OpF at h
  simp only at h
  split_ifs at h with c1 c2 c3 c4 c5 c6 c7 c8 c9 c10
  · cases h; exact ⟨fun _ => rfl, fun _ => rfl⟩
  · cases h; exact ⟨fun _ => rfl, fun _ => rfl⟩
  · simp only [Option.bind_eq_bind, Option.bind_eq_some] at h
    obtain ⟨k, -, h⟩ := h
    split at h <;> cases h <;> exact ⟨fun _ => rfl, fun _ => rfl⟩
  · cases h; exact ⟨fun hne => absurd c4 hne, fun _ => rfl⟩
  · cases h; exact ⟨fun _ => rfl, fun hne => absurd c5 hne⟩
  · cases h; exact ⟨fun _ => rfl, fun _ => rfl⟩
  · cases h; exact ⟨fun _ => rfl, fun _ => rfl⟩
  · simp only [Option.bind_eq_bind, Option.bind_eq_some] at h
    obtain ⟨s1, h1, s2, h2, s3, h3, h⟩ := h
    obtain ⟨a1, a2⟩ := writeMem_timers h1
    obtain ⟨b1, b2⟩ := writeMem_timers h2
    obtain ⟨d1, d2⟩ := writeMem_timers h3
    cases h
    exact ⟨fun _ => (d1.trans b1).trans a1, fun _ => (d2.trans b2).trans a2⟩
  · simp only [Option.bind_eq_bind, Option.bind_eq_some] at h
    obtain ⟨s1, h1, h⟩ := h
    obtain ⟨a1, a2⟩ := regDump_timers _ _ _ _ _ h1
    cases h
    exact ⟨fun _ => a1, fun _ => a2⟩
  · simp only [Option.bind_eq_bind, Option.bind_eq_some] at h
    obtain ⟨s1, h1, h⟩ := h
    obtain ⟨a1, a2⟩ := regLoad_timers _ _ _ _ _ h1
    cases h
    exact ⟨fun _ => a1, fun _ => a2⟩
  · cases h; exact ⟨fun _ => rfl, fun _ => rfl⟩

/-- `Op8` leaves the timers alone. -/
theorem Op8_timers (s : Chip8State) (i0 i1 : Nat) :
    (Op8 s i0 i1).delay = s.delay ∧ (Op8 s i0 i1).sound = s.sound := by
  unfold Op8
  simp only
  split <;> exact ⟨rfl, rfl⟩

/-- C12: for a step that returns, if the instruction at `PC` is not `FX15` the
delay timer after the step is the timer before minus 1 if that was nonzero and
0 if it was 0, and the same holds for the sound timer if the instruction is
not `FX18`. -/
theorem timers_floor (rnd : Nat) (s s' : Chip8State) (hwf : WF s)
    (hstep : EmulateChip8 rnd s = some s') :
    ((∀ X, X < 16 → ¬ InstrAt s (0xF0 + X) 0x15) →
      s'.delay = if s.delay ≠ 0 then s.delay - 1 else 0) ∧
    ((∀ X, X < 16 → ¬ InstrAt s (0xF0 + X) 0x18) →
      s'.sound = if s.sound ≠ 0 then s.sound - 1 else 0) := by
  have hd : (tickTimers s).delay = if s.delay ≠ 0 then s.delay - 1 else 0 := by
    show (if s.delay ≠ 0 then s.delay - 1 else s.delay) = _
    split
    · rfl
    · omega
  have hs : (tickTimers s).sound = if s.sound ≠ 0 then s.sound - 1 else 0 := by
    show (if s.sound ≠ 0 then s.sound - 1 else s.sound) = _
    split
    · rfl
    · omega
  rw [← hd, ← hs]
  simp only [EmulateChip8, Option.bind_eq_bind, Option.bind_eq_some, readMem] at hstep
  obtain ⟨i0, hi0, i1, hi1, h⟩ := hstep
  obtain ⟨hp0, e0⟩ : s.PC < MEMORY_CAPACITY ∧ s.memory s.PC = i0 := by
    by_cases c : s.PC < MEMORY_CAPACITY
    · simp only [tickTimers_PC, tickTimers_memory, if_pos c, Option.some.injEq] at hi0
      exact ⟨c, hi0⟩
    · simp only [tickTimers_PC, if_neg c] at hi0
      cases hi0
  obtain ⟨hp1, e1⟩ : s.PC + 1 < MEMORY_CAPACITY ∧ s.memory (s.PC + 1) = i1 := by
    by_cases c : s.PC + 1 < MEMORY_CAPACITY
    · simp only [tickTimers_PC, tickTimers_memory, if_pos c, Option.some.injEq] at hi1
      exact ⟨c, hi1⟩
    · simp only [tickTimers_PC, if_neg c] at hi1
      cases hi1
  have hb0 : i0 < 256 := by rw [← e0]; exact hwf.hmem _
  rw [byte_hi_nibble i0 hb0] at h
  have hg : i0 / 16 < 16 := by omega
  generalize hgen : i0 / 16 = g at h hg
  interval_cases g <;> simp only at h
  · exact ⟨fun _ => (Op0_timers h).1, fun _ => (Op0_timers h).2⟩
  · cases h; exact ⟨fun _ => rfl, fun _ => rfl⟩
  · simp only [Option.bind_eq_some] at h
    obtain ⟨s2, h2, s3, h3, h⟩ := h
    obtain ⟨a1, a2⟩ := writeMem_timers h2
    obtain ⟨b1, b2⟩ := writeMem_timers h3
    cases h
    exact ⟨fun _ => b1.trans a1, fun _ => b2.trans a2⟩
  · cases h; constructor <;> intro _ <;> dsimp only <;> split <;> rfl
  · cases h; constructor <;> intro _ <;> dsimp only <;> split <;> rfl
  · cases h; constructor <;> intro _ <;> dsimp only <;> split <;> rfl
  · cases h; exact ⟨fun _ => rfl, fun _ => rfl⟩
  · cases h; exact ⟨fun _ => rfl, fun _ => rfl⟩
  · cases h
    exact ⟨fun _ => (Op8_timers _ _ _).1, fun _ => (Op8_timers _ _ _).2⟩
  · cases h; constructor <;> intro _ <;> dsimp only <;> split <;> rfl
  · cases h; exact ⟨fun _ => rfl, fun _ => rfl⟩
  · cases h; exact ⟨fun _ => rfl, fun _ => rfl⟩
  · cases h; exact ⟨fun _ => rfl, fun _ => rfl⟩
  · simp only [Option.bind_eq_some] at h
    obtain ⟨s1, h1, h⟩ := h
    obtain ⟨a1, a2⟩ := OpD_rows_timers _ _ _ _ _ _ _ h1
    cases h
    exact ⟨fun _ => a1, fun _ => a2⟩
  · exact ⟨fun _ => (OpE_timers h).1, fun _ => (OpE_timers h).2⟩
  · obtain ⟨a1, a2⟩ := OpF_timers h
    have hin : ∀ lo, i1 = lo → InstrAt s (0xF0 + i0 % 16) lo := by
      intro lo hlo
      refine ⟨hp1, ?_, by rw [e1, hlo]⟩
      rw [e0]; omega
    constructor
    · intro hno
      apply a1
      intro hc
      exact hno (i0 % 16) (Nat.mod_lt _ (by norm_num)) (hin _ hc)
    · intro hno
      apply a2
      intro hc
      exact hno (i0 % 16) (Nat.mod_lt _ (by norm_num)) (hin _ hc)

/-- Instance of C12: the step of `6105` from `timerDemo` (delay 3, sound 0). -/
theorem timers_floor_witness :
    EmulateChip8 0 timerDemo = some timerNext ∧
    (timerNext.delay = if timerDemo.delay ≠ 0 then timerDemo.delay - 1 else 0) ∧
    (timerNext.sound = if timerDemo.sound ≠ 0 then timerDemo.sound - 1 else 0) :=
  ⟨rfl,
   (timers_floor 0 timerDemo timerNext WF_timerDemo rfl).1
     (fun _ _ h => absurd h.2.2 (by decide)),
   (timers_floor 0 timerDemo timerNext WF_timerDemo rfl).2
     (fun _ _ h => absurd h.2.2 (by decide))⟩

/-! ## Unimplemented opcodes and the frame of the arithmetic group -/

/-- C21: a step of a `0NNN` word whose low byte is neither `0xE0` nor `0xEE`,
or of an `FXNN` word with an undefined low byte, leaves registers, memory, `I`,
`SP`, key states, the awaiting-key flag and `PC` unchanged and only ticks the
timers; a step of an `8XYN` word with an undefined `N` or of an `EXNN` word
with an undefined low byte leaves registers, memory, `I`, `SP`, key states and
the awaiting-key flag unchanged. -/
theorem unimplemented_noop (rnd : Nat) (s : Chip8State) (X lo : Nat) (hX : X < 16) :
    (InstrAt s X lo → lo ≠ 0xE0 → lo ≠ 0xEE →
      ∃ s', EmulateChip8 rnd s = some s' ∧ Untouched s s' ∧ s'.PC = s.PC ∧
        s'.delay = (tickTimers s).delay ∧ s'.sound = (tickTimers s).sound) ∧
    (InstrAt s (0xF0 + X) lo → lo ≠ 0x07 → lo ≠ 0x0A → lo ≠ 0x15 → lo ≠ 0x18 → lo ≠ 0x1E →
      lo ≠ 0x29 → lo ≠ 0x33 → lo ≠ 0x55 → lo ≠ 0x65 →
      ∃ s', EmulateChip8 rnd s = some s' ∧ Untouched s s' ∧ s'.PC = s.PC ∧
        s'.delay = (tickTimers s).delay ∧ s'.sound = (tickTimers s).sound) ∧
    (∀ Y N, Y < 16 → 8 ≤ N → N < 16 → N ≠ 0xE → InstrAt s (0x80 + X) (0x10 * Y + N) →
      ∃ s', EmulateChip8 rnd s = some s' ∧ Untouched s s') ∧
    (InstrAt s (0xE0 + X) lo → lo ≠ 0x9E → lo ≠ 0xA1 →
      ∃ s', EmulateChip8 rnd s = some s' ∧ Untouched s s') := by
  refine ⟨?_, ?_, ?_, ?_⟩
  · rintro ⟨hpc, h0, h1⟩ hE0 hEE
    have hpc0 : s.PC < MEMORY_CAPACITY := by omega
    have hn : (X &&& 0xF0) >>> 4 = 0 := by rw [byte_hi_nibble _ (by omega)]; omega
    refine ⟨tickTimers s, ?_, ⟨rfl, rfl, rfl, rfl, rfl, rfl⟩, rfl, rfl, rfl⟩
    simp [EmulateChip8, readMem, hpc, hpc0, h0, h1, hn, Op0, hE0, hEE]
  · intro hi c1 c2 c3 c4 c5 c6 c7 c8 c9
    refine ⟨tickTimers s, ?_, ⟨rfl, rfl, rfl, rfl, rfl, rfl⟩, rfl, rfl, rfl⟩
    rw [EmulateChip8_groupF rnd s X lo hX hi]
    simp [OpF, c1, c2, c3, c4, c5, c6, c7, c8, c9]
  · intro Y N hY h8 hN hE hi
    obtain ⟨hx, hy, hn⟩ := group8_fields X Y N hX hY hN
    refine ⟨_, EmulateChip8_group8 rnd s X _ hX hi, ?_⟩
    have hop : Op8 (tickTimers s) (0x80 + X) (0x10 * Y + N) = tickTimers s := by
      interval_cases N <;> first | omega | simp [Op8, hn]
    rw [hop]
    exact ⟨rfl, rfl, rfl, rfl, rfl, rfl⟩
  · rintro ⟨hpc, h0, h1⟩ h9 hA
    have hpc0 : s.PC < MEMORY_CAPACITY := by omega
    have hn : ((0xE0 + X) &&& 0xF0) >>> 4 = 14 := by rw [byte_hi_nibble _ (by omega)]; omega
    refine ⟨{ tickTimers s with PC := (s.PC + 2) % 65536 }, ?_, ⟨rfl, rfl, rfl, rfl, rfl, rfl⟩⟩
    simp [EmulateChip8, readMem, hpc, hpc0, h0, h1, hn, OpE, h9, hA]

/-- Instance of C21: the words `0123`, `F199`, `8128` and `E100`. -/
theorem unimplemented_noop_witness :
    (∃ s', EmulateChip8 0 (regState 0x01 0x23 1 7 2 9) = some s' ∧
      Untouched (regState 0x01 0x23 1 7 2 9) s' ∧ s'.PC = (regState 0x01 0x23 1 7 2 9).PC ∧
      s'.delay = (tickTimers (regState 0x01 0x23 1 7 2 9)).delay ∧
      s'.sound = (tickTimers (regState 0x01 0x23 1 7 2 9)).sound) ∧
    (∃ s', EmulateChip8 0 (regState 0xF1 0x99 1 7 2 9) = some s' ∧
      Untouched (regState 0xF1 0x99 1 7 2 9) s' ∧ s'.PC = (regState 0xF1 0x99 1 7 2 9).PC ∧
      s'.delay = (tickTimers (regState 0xF1 0x99 1 7 2 9)).delay ∧
      s'.sound = (tickTimers (regState 0xF1 0x99 1 7 2 9)).sound) ∧
    (∃ s', EmulateChip8 0 (regState 0x81 0x28 1 7 2 9) = some s' ∧
      Untouched (regState 0x81 0x28 1 7 2 9) s') ∧
    (∃ s', EmulateChip8 0 (regState 0xE1 0x00 1 7 2 9) = some s' ∧
      Untouched (regState 0xE1 0x00 1 7 2 9) s') :=
  ⟨(unimplemented_noop 0 (regState 0x01 0x23 1 7 2 9) 1 0x23 (by decide)).1
      ⟨by decide, by decide, by decide⟩ (by decide) (by decide),
   (unimplemented_noop 0 (regState 0xF1 0x99 1 7 2 9) 1 0x99 (by decide)).2.1
      ⟨by decide, by decide, by decide⟩ (by decide) (by decide) (by decide) (by decide)
      (by decide) (by decide) (by decide) (by decide) (by decide),
   (unimplemented_noop 0 (regState 0x81 0x28 1 7 2 9) 1 0x28 (by decide)).2.2.1 2 8
      (by decide) (by decide) (by decide) (by decide) ⟨by decide, by decide, by decide⟩,
   (unimplemented_noop 0 (regState 0xE1 0x00 1 7 2 9) 1 0x00 (by decide)).2.2.2
      ⟨by decide, by decide, by decide⟩ (by decide) (by decide)⟩

/-- C27: a step of any `8XYN` word (all sixteen `N`) advances `PC` by 2,
leaves every register other than `VX` and `VF` unchanged and leaves memory,
`I`, `SP`, key states and the awaiting-key flag unchanged; for `N < 4` and
`X ≠ 0xF` it leaves `VF` unchanged too. -/
theorem group8_frame (rnd : Nat) (s : Chip8State) (X Y N : Nat) (hX : X < 16) (hY : Y < 16)
    (hN : N < 16) (hi : InstrAt s (0x80 + X) (0x10 * Y + N)) :
    ∃ s', EmulateChip8 rnd s = some s' ∧ s'.PC = s.PC + 2 ∧
      (∀ k, k ≠ X → k ≠ 0xF → s'.V k = s.V k) ∧
      s'.memory = s.memory ∧ s'.I = s.I ∧ s'.SP = s.SP ∧ s'.keys = s.keys ∧
      s'.awaitingKey = s.awaitingKey ∧
      (N < 4 → X ≠ 0xF → s'.V 0xF = s.V 0xF) := by
  obtain ⟨hx, hy, hn⟩ := group8_fields X Y N hX hY hN
  have hpc : (s.PC + 2) % 65536 = s.PC + 2 := by
    have := hi.1
    simp only [MEMORY_CAPACITY] at this
    omega
  refine ⟨_, EmulateChip8_group8 rnd s X _ hX hi, ?_⟩
  interval_cases N <;> simp only [Op8, hx, hy, hn, setV, tickTimers_V] <;>
    refine ⟨hpc, ?_, rfl, rfl, rfl, rfl, rfl, ?_⟩ <;>
    first
    | (intro k h1 h2; simp only [if_neg h1, if_neg h2])
    | (intro h4; omega)
    | (intro _ hXF; have hFX : ¬ (15 = X) := fun h => hXF h.symm; simp only [if_neg hFX])

/-- Instance of C27: the word `8121` (`OR V1, V2`). -/
theorem group8_frame_witness :
    ∃ s', EmulateChip8 0 (regState 0x81 0x21 1 5 2 3) = some s' ∧
      s'.PC = (regState 0x81 0x21 1 5 2 3).PC + 2 ∧
      (∀ k, k ≠ 1 → k ≠ 0xF → s'.V k = (regState 0x81 0x21 1 5 2 3).V k) ∧
      s'.memory = (regState 0x81 0x21 1 5 2 3).memory ∧
      s'.I = (regState 0x81 0x21 1 5 2 3).I ∧ s'.SP = (regState 0x81 0x21 1 5 2 3).SP ∧
      s'.keys = (regState 0x81 0x21 1 5 2 3).keys ∧
      s'.awaitingKey = (regState 0x81 0x21 1 5 2 3).awaitingKey ∧
      (1 < 4 → 1 ≠ 0xF → s'.V 0xF = (regState 0x81 0x21 1 5 2 3).V 0xF) :=
  group8_frame 0 (regState 0x81 0x21 1 5 2 3) 1 2 1 (by decide) (by decide) (by decide)
    ⟨by decide, by decide, by decide⟩

/-! ## Key skips -/

/-- The step of `EX9E` (`skipIfDown = true`) or `EXA1` (`false`) with `VX ≤ 15`
as an explicit state. -/
theorem EmulateChip8_keyskip (rnd : Nat) (s : Chip8State) (X : Nat) (hX : X < 16)
    (hv : s.V X ≤ 15) :
    (InstrAt s (0xE0 + X) 0x9E →
      EmulateChip8 rnd s = some { tickTimers s with
        PC := s.PC + (if s.keys (s.V X) ≠ 0 then 4 else 2) }) ∧
    (InstrAt s (0xE0 + X) 0xA1 →
      EmulateChip8 rnd s = some { tickTimers s with
        PC := s.PC + (if s.keys (s.V X) = 0 then 4 else 2) }) := by
  have hn : ((0xE0 + X) &&& 0xF0) >>> 4 = 14 := by rw [byte_hi_nibble _ (by omega)]; omega
  have hx : (0xE0 + X) &&& 0x0f = X := by rw [byte_lo_nibble _ (by omega)]; omega
  have hk : s.V X < 0x10 := by omega
  constructor
  · rintro ⟨hpc, h0, h1⟩
    have hpc0 : s.PC < MEMORY_CAPACITY := by omega
    have e2 : (s.PC + 2) % 65536 = s.PC + 2 := by simp only [MEMORY_CAPACITY] at hpc; omega
    have e4 : (s.PC + 2 + 2) % 65536 = s.PC + 4 := by simp only [MEMORY_CAPACITY] at hpc; omega
    by_cases hc : s.keys (s.V X) = 0
    · simp [EmulateChip8, readMem, hpc, hpc0, h0, h1, hn, OpE, hx, readKey, hk, hc, e2]
    · simp [EmulateChip8, readMem, hpc, hpc0, h0, h1, hn, OpE, hx, readKey, hk, hc, e2, e4]
  · rintro ⟨hpc, h0, h1⟩
    have hpc0 : s.PC < MEMORY_CAPACITY := by omega
    have e2 : (s.PC + 2) % 65536 = s.PC + 2 := by simp only [MEMORY_CAPACITY] at hpc; omega
    have e4 : (s.PC + 2 + 2) % 65536 = s.PC + 4 := by simp only [MEMORY_CAPACITY] at hpc; omega
    by_cases hc : s.keys (s.V X) = 0
    · simp [EmulateChip8, readMem, hpc, hpc0, h0, h1, hn, OpE, hx, readKey, hk, hc, e2, e4]
    · simp [EmulateChip8, readMem, hpc, hpc0, h0, h1, hn, OpE, hx, readKey, hk, hc, e2]

/-- C28: with `VX ≤ 15`, a step of `EX9E` advances `PC` by 4 if `keys[VX]` is
nonzero and by 2 otherwise, a step of `EXA1` advances `PC` by 4 if `keys[VX]`
is zero and by 2 otherwise, so exactly one of the two advances is 4; both
leave the awaiting-key flag, the registers, the key states and memory
unchanged, and the outcome is the same for every value of the flag. -/
theorem key_skips (rnd : Nat) (s : Chip8State) (X : Nat) (hX : X < 16) (hv : s.V X ≤ 15) :
    (InstrAt s (0xE0 + X) 0x9E →
      ∃ s', EmulateChip8 rnd s = some s' ∧
        s'.PC = s.PC + (if s.keys (s.V X) ≠ 0 then 4 else 2) ∧
        s'.awaitingKey = s.awaitingKey ∧ s'.V = s.V ∧ s'.keys = s.keys ∧
        s'.memory = s.memory ∧
        ∀ w, EmulateChip8 rnd { s with awaitingKey := w } = some { s' with awaitingKey := w }) ∧
    (InstrAt s (0xE0 + X) 0xA1 →
      ∃ s', EmulateChip8 rnd s = some s' ∧
        s'.PC = s.PC + (if s.keys (s.V X) = 0 then 4 else 2) ∧
        s'.awaitingKey = s.awaitingKey ∧ s'.V = s.V ∧ s'.keys = s.keys ∧
        s'.memory = s.memory ∧
        ∀ w, EmulateChip8 rnd { s with awaitingKey := w } = some { s' with awaitingKey := w }) ∧
    (s.PC + (if s.keys (s.V X) ≠ 0 then 4 else 2) = s.PC + 4 ∧
        s.PC + (if s.keys (s.V X) = 0 then 4 else 2) = s.PC + 2 ∨
      s.PC + (if s.keys (s.V X) ≠ 0 then 4 else 2) = s.PC + 2 ∧
        s.PC + (if s.keys (s.V X) = 0 then 4 else 2) = s.PC + 4) := by
  refine ⟨?_, ?_, ?_⟩
  · intro hi
    refine ⟨_, (EmulateChip8_keyskip rnd s X hX hv).1 hi, rfl, rfl, rfl, rfl, rfl, ?_⟩
    intro w
    exact (EmulateChip8_keyskip rnd { s with awaitingKey := w } X hX hv).1 hi
  · intro hi
    refine ⟨_, (EmulateChip8_keyskip rnd s X hX hv).2 hi, rfl, rfl, rfl, rfl, rfl, ?_⟩
    intro w
    exact (EmulateChip8_keyskip rnd { s with awaitingKey := w } X hX hv).2 hi
  · by_cases hc : s.keys (s.V X) = 0
    · right; simp [hc]
    · left; simp [hc]

/-- Instance of C28: `E39E` and `E3A1` with `V3 = 5` and key 5 pressed. -/
theorem key_skips_witness :
    (∃ s', EmulateChip8 0 (skipDemo 0x9E) = some s' ∧ s'.PC = (skipDemo 0x9E).PC + 4) ∧
    (∃ s', EmulateChip8 0 (skipDemo 0xA1) = some s' ∧ s'.PC = (skipDemo 0xA1).PC + 2) := by
  obtain ⟨h1, -, -⟩ := key_skips 0 (skipDemo 0x9E) 3 (by decide) (by decide)
  obtain ⟨-, h2, -⟩ := key_skips 0 (skipDemo 0xA1) 3 (by decide) (by decide)
  obtain ⟨s1, e1, p1, -⟩ := h1 ⟨by decide, by decide, by decide⟩
  obtain ⟨s2, e2, p2, -⟩ := h2 ⟨by decide, by decide, by decide⟩
  exact ⟨⟨s1, e1, p1⟩, ⟨s2, e2, p2⟩⟩

/-! ## Order of the flag store in `Op8` -/

/-- C25: the code at the failing inputs, one per opcode, with `X = 0xF`.
`8F14` with `VF = 200`, `V1 = 100` overflows, so the flag is 1, yet the step
leaves `VF = 44`, the low byte of the sum; `8F15` with `VF = 200`, `V1 = 100`
does not borrow (flag 1) and leaves `157`; `8F17` with `VF = 100`, `V1 = 200`
does not borrow (flag 1) and leaves `199`; `8F16` and `8F1E` with `VF = 201`
shift out a set bit and leave `0`. -/
theorem flag_clobbered_by_result :
    (InstrAt (regState 0x8F 0x14 0xF 200 1 100) (0x80 + 0xF) (0x10 * 1 + 0x4) ∧
      (regState 0x8F 0x14 0xF 200 1 100).V 0xF + (regState 0x8F 0x14 0xF 200 1 100).V 1 > 255 ∧
      (EmulateChip8 0 (regState 0x8F 0x14 0xF 200 1 100)).map (fun t => t.V 0xF) = some 44) ∧
    (InstrAt (regState 0x8F 0x15 0xF 200 1 100) (0x80 + 0xF) (0x10 * 1 + 0x5) ∧
      (regState 0x8F 0x15 0xF 200 1 100).V 0xF > (regState 0x8F 0x15 0xF 200 1 100).V 1 ∧
      (EmulateChip8 0 (regState 0x8F 0x15 0xF 200 1 100)).map (fun t => t.V 0xF) = some 157) ∧
    (InstrAt (regState 0x8F 0x16 0xF 201 1 100) (0x80 + 0xF) (0x10 * 1 + 0x6) ∧
      (regState 0x8F 0x16 0xF 201 1 100).V 0xF % 2 = 1 ∧
      (EmulateChip8 0 (regState 0x8F 0x16 0xF 201 1 100)).map (fun t => t.V 0xF) = some 0) ∧
    (InstrAt (regState 0x8F 0x17 0xF 100 1 200) (0x80 + 0xF) (0x10 * 1 + 0x7) ∧
      (regState 0x8F 0x17 0xF 100 1 200).V 1 > (regState 0x8F 0x17 0xF 100 1 200).V 0xF ∧
      (EmulateChip8 0 (regState 0x8F 0x17 0xF 100 1 200)).map (fun t => t.V 0xF) = some 199) ∧
    (InstrAt (regState 0x8F 0x1E 0xF 201 1 100) (0x80 + 0xF) (0x10 * 1 + 0xE) ∧
      (regState 0x8F 0x1E 0xF 201 1 100).V 0xF ≥ 128 ∧
      (EmulateChip8 0 (regState 0x8F 0x1E 0xF 201 1 100)).map (fun t => t.V 0xF) = some 0) :=
  ⟨⟨⟨by decide, by decide, by decide⟩, by decide, by decide⟩,
   ⟨⟨by decide, by decide, by decide⟩, by decide, by decide⟩,
   ⟨⟨by decide, by decide, by decide⟩, by decide, by decide⟩,
   ⟨⟨by decide, by decide, by decide⟩, by decide, by decide⟩,
   ⟨⟨by decide, by decide, by decide⟩, by decide, by decide⟩⟩

/-- C26: the code at the failing inputs, with `Y = 0xF`.  `81F5` with
`V1 = 10`, `VF = 3` leaves `V1 = 9`, where `10 - 3 = 7`; `81F7` with `V1 = 3`,
`VF = 10` leaves `V1 = 254`, where `10 - 3 = 7`.  The add `81F4` on `V1 = 10`,
`VF = 3` does read the old flag: it leaves `V1 = 13`. -/
theorem subtraction_reads_new_flag :
    (InstrAt (regState 0x81 0xF5 1 10 0xF 3) (0x80 + 1) (0x10 * 0xF + 0x5) ∧
      (regState 0x81 0xF5 1 10 0xF 3).V 1 = 10 ∧ (regState 0x81 0xF5 1 10 0xF 3).V 0xF = 3 ∧
      (EmulateChip8 0 (regState 0x81 0xF5 1 10 0xF 3)).map (fun t => t.V 1) = some 9) ∧
    (InstrAt (regState 0x81 0xF7 1 3 0xF 10) (0x80 + 1) (0x10 * 0xF + 0x7) ∧
      (regState 0x81 0xF7 1 3 0xF 10).V 1 = 3 ∧ (regState 0x81 0xF7 1 3 0xF 10).V 0xF = 10 ∧
      (EmulateChip8 0 (regState 0x81 0xF7 1 3 0xF 10)).map (fun t => t.V 1) = some 254) ∧
    (InstrAt (regState 0x81 0xF4 1 10 0xF 3) (0x80 + 1) (0x10 * 0xF + 0x4) ∧
      (regState 0x81 0xF4 1 10 0xF 3).V 1 = 10 ∧ (regState 0x81 0xF4 1 10 0xF 3).V 0xF = 3 ∧
      (EmulateChip8 0 (regState 0x81 0xF4 1 10 0xF 3)).map (fun t => t.V 1) = some 13) :=
  ⟨⟨⟨by decide, by decide, by decide⟩, by decide, by decide, by decide⟩,
   ⟨⟨by decide, by decide, by decide⟩, by decide, by decide, by decide⟩,
   ⟨⟨by decide, by decide, by decide⟩, by decide, by decide, by decide⟩⟩

/-! ## Glyph table and stack pointer along a run -/

/-- A store into memory changes only the byte stored to. -/
theorem writeMem_frame {s s' : Chip8State} {a v : Nat} (h : writeMem s a v = some s') :
    s'.SP = s.SP ∧ s'.I = s.I ∧ s'.PC = s.PC ∧ s'.V = s.V ∧ a < MEMORY_CAPACITY ∧
      ∀ b, b ≠ a → s'.memory b = s.memory b := by
  unfold writeMem at h
  split at h
  · rename_i ha
    cases h
    exact ⟨rfl, rfl, rfl, rfl, ha, fun b hb => if_neg hb⟩
  · cases h

/-- One pass through the body of the inner draw loop leaves `SP`, `I` and
memory below the display alone. -/
theorem OpD_bit_frame {s s' : Chip8State} {y i j sb : Nat} (h : OpD_bit y i j sb s = some s') :
    s'.SP = s.SP ∧ ∀ b, b < DISPLAY_BUFFER → s'.memory b = s.memory b := by
  simp only [OpD_bit, Option.bind_eq_bind, Option.bind_eq_some] at h
  obtain ⟨sprite, -, h⟩ := h
  split at h
  · simp only [Option.bind_eq_some] at h
    obtain ⟨d, -, h⟩ := h
    obtain ⟨h1, -, -, -, -, h2⟩ := writeMem_frame h
    refine ⟨?_, ?_⟩
    · rw [h1]; split <;> rfl
    · intro b hb
      rw [h2 b (by omega)]
      split <;> rfl
  · cases h; exact ⟨rfl, fun _ _ => rfl⟩

/-- The inner draw loop leaves `SP` and memory below the display alone. -/
theorem OpD_cols_frame (x y i : Nat) : ∀ (fuel j sb : Nat) (s s' : Chip8State),
    OpD_cols x y i fuel j sb s = some s' →
      s'.SP = s.SP ∧ ∀ b, b < DISPLAY_BUFFER → s'.memory b = s.memory b := by
  intro fuel
  induction fuel with
  | zero =>
    intro j sb s s' h
    simp only [OpD_cols] at h
    split at h
    · cases h
    · cases h; exact ⟨rfl, fun _ _ => rfl⟩
  | succ fuel ih =>
    intro j sb s s' h
    simp only [OpD_cols] at h
    split at h
    · simp only [Option.bind_eq_some] at h
      obtain ⟨s1, h1, h2⟩ := h
      obtain ⟨a1, a2⟩ := OpD_bit_frame h1
      obtain ⟨b1, b2⟩ := ih _ _ _ _ h2
      exact ⟨b1.trans a1, fun b hb => (b2 b hb).trans (a2 b hb)⟩
    · cases h; exact ⟨rfl, fun _ _ => rfl⟩

/-- The outer draw loop leaves `SP` and memory below the display alone. -/
theorem OpD_rows_frame (x y n : Nat) : ∀ (fuel i : Nat) (s s' : Chip8State),
    OpD_rows x y n fuel i s = some s' →
      s'.SP = s.SP ∧ ∀ b, b < DISPLAY_BUFFER → s'.memory b = s.memory b := by
  intro fuel
  induction fuel with
  | zero =>
    intro i s s' h
    simp only [OpD_rows] at h
    split at h
    · cases h
    · cases h; exact ⟨rfl, fun _ _ => rfl⟩
  | succ fuel ih =>
    intro i s s' h
    simp only [OpD_rows] at h
    split at h
    · simp only [Option.bind_eq_some] at h
      obtain ⟨s1, h1, h2⟩ := h
      obtain ⟨a1, a2⟩ := OpD_cols_frame x y i _ _ _ _ _ h1
      obtain ⟨b1, b2⟩ := ih _ _ _ h2
      exact ⟨b1.trans a1, fun b hb => (b2 b hb).trans (a2 b hb)⟩
    · cases h; exact ⟨rfl, fun _ _ => rfl⟩

/-- The store loop of `FX55` leaves `SP`, `I` and memory below `I` alone. -/
theorem regDump_frame (X : Nat) : ∀ (fuel v : Nat) (s s' : Chip8State),
    regDump X fuel v s = some s' →
      s'.SP = s.SP ∧ s'.I = s.I ∧ ∀ b, b < s.I → s'.memory b = s.memory b := by
  intro fuel
  induction fuel with
  | zero =>
    intro v s s' h
    simp only [regDump] at h
    split at h
    · cases h
    · cases h; exact ⟨rfl, rfl, fun _ _ => rfl⟩
  | succ fuel ih =>
    intro v s s' h
    simp only [regDump] at h
    split at h
    · simp only [Option.bind_eq_some] at h
      obtain ⟨s1, h1, h2⟩ := h
      obtain ⟨a1, a2, -, -, -, a3⟩ := writeMem_frame h1
      obtain ⟨b1, b2, b3⟩ := ih _ _ _ h2
      refine ⟨b1.trans a1, b2.trans a2, ?_⟩
      intro b hb
      rw [b3 b (by rw [a2]; exact hb), a3 b (by omega)]
    · cases h; exact ⟨rfl, rfl, fun _ _ => rfl⟩

/-- The load loop of `FX65` leaves `SP` and memory alone. -/
theorem regLoad_frame (X : Nat) : ∀ (fuel v : Nat) (s s' : Chip8State),
    regLoad X fuel v s = some s' → s'.SP = s.SP ∧ s'.memory = s.memory := by
  intro fuel
  induction fuel with
  | zero =>
    intro v s s' h
    simp only [regLoad] at h
    split at h
    · cases h
    · cases h; exact ⟨rfl, rfl⟩
  | succ fuel ih =>
    intro v s s' h
    simp only [regLoad] at h
    split at h
    · simp only [Option.bind_eq_some] at h
      obtain ⟨b, -, h2⟩ := h
      have := ih _ _ _ h2
      exact this
    · cases h; exact ⟨rfl, rfl⟩

/-- `Op8` leaves `SP` and memory alone. -/
theorem Op8_frame (s : Chip8State) (i0 i1 : Nat) :
    (Op8 s i0 i1).SP = s.SP ∧ (Op8 s i0 i1).memory = s.memory := by
  unfold Op8
  simp only
  split <;> exact ⟨rfl, rfl⟩

/-- `OpE` leaves `SP` and memory alone. -/
theorem OpE_frame {s s' : Chip8State} {i0 i1 : Nat} (h : OpE s i0 i1 = some s') :
    s'.SP = s.SP ∧ s'.memory = s.memory := by
  unfold OpE at h
  simp only at h
  split at h
  · simp only [Option.bind_eq_bind, Option.bind_eq_some] at h
    obtain ⟨k, -, h⟩ := h
    cases h
    split <;> exact ⟨rfl, rfl⟩
  · split at h
    · simp only [Option.bind_eq_bind, Option.bind_eq_some] at h
      obtain ⟨k, -, h⟩ := h
      cases h
      split <;> exact ⟨rfl, rfl⟩
    · cases h; exact ⟨rfl, rfl⟩

/-- `OpF` leaves `SP` alone, and stores only at `I` and above, and only in
`FX33` and `FX55`. -/
theorem OpF_frame {s s' : Chip8State} {i0 i1 : Nat} (h : OpF s i0 i1 = some s') :
    s'.SP = s.SP ∧
      ((i1 = 0x33 ∨ i1 = 0x55 → 0x50 ≤ s.I) → ∀ b, b < 0x50 → s'.memory b = s.memory b) := by
  unfold OpF at h
  simp only at h
  split_ifs at h with c1 c2 c3 c4 c5 c6 c7 c8 c9 c10
  · cases h; exact ⟨rfl, fun _ _ _ => rfl⟩
  · cases h; exact ⟨rfl, fun _ _ _ => rfl⟩
  · simp only [Option.bind_eq_bind, Option.bind_eq_some] at h
    obtain ⟨k, -, h⟩ := h
    split at h <;> cases h <;> exact ⟨rfl, fun _ _ _ => rfl⟩
  · cases h; exact ⟨rfl, fun _ _ _ => rfl⟩
  · cases h; exact ⟨rfl, fun _ _ _ => rfl⟩
  · cases h; exact ⟨rfl, fun _ _ _ => rfl⟩
  · cases h; exact ⟨rfl, fun _ _ _ => rfl⟩
  · simp only [Option.bind_eq_bind, Option.bind_eq_some] at h
    obtain ⟨s1, h1, s2, h2, s3, h3, h⟩ := h
    obtain ⟨a1, a2, -, -, -, a3⟩ := writeMem_frame h1
    obtain ⟨b1, b2, -, -, -, b3⟩ := writeMem_frame h2
    obtain ⟨d1, d2, -, -, -, d3⟩ := writeMem_frame h3
    cases h
    refine ⟨(d1.trans b1).trans a1, ?_⟩
    intro hI b hb
    have hI' := hI (Or.inl c8)
    show s3.memory b = s.memory b
    rw [d3 b (by rw [b2, a2]; omega), b3 b (by rw [a2]; omega), a3 b (by omega)]
  · simp only [Option.bind_eq_bind, Option.bind_eq_some] at h
    obtain ⟨s1, h1, h⟩ := h
    obtain ⟨a1, -, a3⟩ := regDump_frame _ _ _ _ _ h1
    cases h
    refine ⟨a1, ?_⟩
    intro hI b hb
    have hI' := hI (Or.inr c9)
    exact a3 b (by omega)
  · simp only [Option.bind_eq_bind, Option.bind_eq_some] at h
    obtain ⟨s1, h1, h⟩ := h
    obtain ⟨a1, a2⟩ := regLoad_frame _ _ _ _ _ h1
    cases h
    exact ⟨a1, fun _ b _ => congrFun a2 b⟩
  · cases h; exact ⟨rfl, fun _ _ _ => rfl⟩

/-- `Op0` leaves memory below the display alone and changes `SP` only in the
`RET` case. -/
theorem Op0_frame {s s' : Chip8State} {i1 : Nat} (h : Op0 s i1 = some s') :
    (s'.SP = s.SP ∨ (i1 = 0xee ∧ s'.SP = (s.SP + 2) % 65536)) ∧
      ∀ b, b < DISPLAY_BUFFER → s'.memory b = s.memory b := by
  unfold Op0 at h
  split at h
  · cases h
    refine ⟨Or.inl rfl, ?_⟩
    intro b hb
    show (if DISPLAY_BUFFER ≤ b ∧ b < DISPLAY_BUFFER + 256 then 0 else s.memory b) = _
    rw [if_neg (by omega)]
  · split at h
    · rename_i hee
      simp only [Option.bind_eq_bind, Option.bind_eq_some] at h
      obtain ⟨hi, -, lo, -, h⟩ := h
      cases h
      exact ⟨Or.inr ⟨hee, rfl⟩, fun _ _ => rfl⟩
    · cases h; exact ⟨Or.inl rfl, fun _ _ => rfl⟩

/-- One step: `SP` changes only in a call (down by 2, with both stack bytes
inside memory) and in a return (up by 2), and the glyph table changes only in
a store that reaches into it. -/
theorem EmulateChip8_frame (rnd : Nat) (s s' : Chip8State)
    (h : EmulateChip8 rnd s = some s') :
    (s'.SP = s.SP ∨
      (opGroup s = 0x2 ∧ s'.SP = (s.SP + 65534) % 65536 ∧ s'.SP + 1 < MEMORY_CAPACITY) ∨
      (isReturn s ∧ s'.SP = (s.SP + 2) % 65536)) ∧
    (¬ storesIntoGlyphs s → s.SP < 65536 → ∀ b, b < 0x50 → s'.memory b = s.memory b) := by
  simp only [EmulateChip8, Option.bind_eq_bind, Option.bind_eq_some, readMem] at h
  obtain ⟨i0, hi0, i1, hi1, h⟩ := h
  obtain ⟨hp0, e0⟩ : s.PC < MEMORY_CAPACITY ∧ s.memory s.PC = i0 := by
    by_cases c : s.PC < MEMORY_CAPACITY
    · simp only [tickTimers_PC, tickTimers_memory, if_pos c, Option.some.injEq] at hi0
      exact ⟨c, hi0⟩
    · simp only [tickTimers_PC, if_neg c] at hi0
      cases hi0
  obtain ⟨hp1, e1⟩ : s.PC + 1 < MEMORY_CAPACITY ∧ s.memory (s.PC + 1) = i1 := by
    by_cases c : s.PC + 1 < MEMORY_CAPACITY
    · simp only [tickTimers_PC, tickTimers_memory, if_pos c, Option.some.injEq] at hi1
      exact ⟨c, hi1⟩
    · simp only [tickTimers_PC, if_neg c] at hi1
      cases hi1
  have hgrp : opGroup s = (i0 &&& 0xF0) >>> 4 := by rw [opGroup, e0]
  generalize (i0 &&& 0xF0) >>> 4 = g at h hgrp
  have hdisp : ∀ b, b < 0x50 → b < DISPLAY_BUFFER := by
    intro b hb; simp only [DISPLAY_BUFFER]; omega
  split at h
  · -- group 0
    obtain ⟨a1, a2⟩ := Op0_frame h
    refine ⟨?_, fun _ _ b hb => a2 b (hdisp b hb)⟩
    rcases a1 with a1 | ⟨a1, a3⟩
    · exact Or.inl a1
    · exact Or.inr (Or.inr ⟨⟨hgrp, by rw [e1, a1]⟩, a3⟩)
  · cases h; exact ⟨Or.inl rfl, fun _ _ _ _ => rfl⟩
  · -- call
    simp only [Option.bind_eq_some] at h
    obtain ⟨s2, h2, s3, h3, h⟩ := h
    obtain ⟨a1, -, -, -, a5, a6⟩ := writeMem_frame h2
    obtain ⟨b1, -, -, -, b5, b6⟩ := writeMem_frame h3
    cases h
    have hsp2 : s2.SP = (s.SP + 65534) % 65536 := by
      rw [a1]
      show (s.SP + 65536 - 2) % 65536 = _
      omega
    have hsp3 : s3.SP = (s.SP + 65534) % 65536 := by rw [b1, hsp2]
    have a6' : ∀ b, b ≠ (s.SP + 65534) % 65536 → s2.memory b = s.memory b := by
      intro b hb
      exact a6 b (by show b ≠ (s.SP + 65536 - 2) % 65536; omega)
    refine ⟨Or.inr (Or.inl ⟨hgrp, hsp3, ?_⟩), ?_⟩
    · show s3.SP + 1 < MEMORY_CAPACITY
      rw [hsp3, ← hsp2]; exact b5
    · intro hno hsp b hb
      have hnot : ¬ s.SP < 0x52 := fun hlt => hno (Or.inl ⟨hgrp, hlt⟩)
      show s3.memory b = s.memory b
      rw [b6 b (by rw [hsp2]; omega), a6' b (by omega)]
  · cases h; refine ⟨Or.inl ?_, fun _ _ _ _ => ?_⟩ <;> dsimp only <;> split <;> rfl
  · cases h; refine ⟨Or.inl ?_, fun _ _ _ _ => ?_⟩ <;> dsimp only <;> split <;> rfl
  · cases h; refine ⟨Or.inl ?_, fun _ _ _ _ => ?_⟩ <;> dsimp only <;> split <;> rfl
  · cases h; exact ⟨Or.inl rfl, fun _ _ _ _ => rfl⟩
  · cases h; exact ⟨Or.inl rfl, fun _ _ _ _ => rfl⟩
  · cases h
    exact ⟨Or.inl (Op8_frame _ _ _).1, fun _ _ b _ => congrFun (Op8_frame _ _ _).2 b⟩
  · cases h; refine ⟨Or.inl ?_, fun _ _ _ _ => ?_⟩ <;> dsimp only <;> split <;> rfl
  · cases h; exact ⟨Or.inl rfl, fun _ _ _ _ => rfl⟩
  · cases h; exact ⟨Or.inl rfl, fun _ _ _ _ => rfl⟩
  · cases h; exact ⟨Or.inl rfl, fun _ _ _ _ => rfl⟩
  · simp only [Option.bind_eq_some] at h
    obtain ⟨s1, h1, h⟩ := h
    obtain ⟨a1, a2⟩ := OpD_rows_frame _ _ _ _ _ _ _ h1
    cases h
    exact ⟨Or.inl a1, fun _ _ b hb => a2 b (hdisp b hb)⟩
  · obtain ⟨a1, a2⟩ := OpE_frame h
    exact ⟨Or.inl a1, fun _ _ b _ => congrFun a2 b⟩
  · obtain ⟨a1, a2⟩ := OpF_frame h
    refine ⟨Or.inl a1, ?_⟩
    intro hno _ b hb
    apply a2 _ b hb
    intro hc
    by_contra hI
    exact hno (Or.inr ⟨hgrp, by rw [e1]; exact hc, by
      have : (tickTimers s).I = s.I := rfl
      omega⟩)
  · cases h; exact ⟨Or.inl rfl, fun _ _ _ _ => rfl⟩

/-- A run without a store into the glyph table leaves the table as it was. -/
theorem EmulateSteps_glyphs : ∀ (rnds : List Nat) (s s' : Chip8State), s.SP < 65536 →
    EmulateSteps rnds s = some s' → noGlyphStore rnds s = true →
    ∀ a, a < 0x50 → s'.memory a = s.memory a := by
  intro rnds
  induction rnds with
  | nil =>
    intro s s' _ h _ a _
    simp only [EmulateSteps, Option.some.injEq] at h
    rw [h]
  | cons rnd rest ih =>
    intro s s' hsp h hno a ha
    simp only [EmulateSteps, Option.bind_eq_some] at h
    obtain ⟨s1, h1, h2⟩ := h
    simp only [noGlyphStore, h1, Bool.and_eq_true, Bool.not_eq_true', decide_eq_false_iff_not]
      at hno
    obtain ⟨f1, f2⟩ := EmulateChip8_frame rnd s s1 h1
    have hsp1 : s1.SP < 65536 := by
      rcases f1 with e | ⟨-, e, -⟩ | ⟨-, e⟩
      · rw [e]; exact hsp
      · rw [e]; exact Nat.mod_lt _ (by norm_num)
      · rw [e]; exact Nat.mod_lt _ (by norm_num)
    rw [ih s1 s' hsp1 h2 hno.2 a ha, f2 hno.1 hsp a ha]

/-- C22 as stated fails: after the two steps of `A000 F055` from the initial
state, both inside the address space, `memory[0x000]` is `0x00` where the
glyph table had `0xF0`. -/
theorem glyph_table_overwritten :
    (EmulateSteps [0, 0] glyphStoreDemo).map (fun t => t.memory 0x000) = some 0x00 ∧
    InitChip8.memory 0x000 = 0xF0 := by
  constructor <;> decide

/-- C22, amended: for every program image and every run from the initial
state that returns and in which no step is a store reaching into the glyph
table (`2NNN` with `SP < 0x52`, `FX33` or `FX55` with `I < 0x50`), the 80
bytes `memory[0x000 .. 0x04F]` are as after initialisation. -/
theorem glyphs_kept (image rnds : List Nat) (s' : Chip8State)
    (hsteps : EmulateSteps rnds (loadProgram InitChip8 image) = some s')
    (hno : noGlyphStore rnds (loadProgram InitChip8 image) = true) :
    ∀ a, a < 0x50 → s'.memory a = InitChip8.memory a := by
  intro a ha
  rw [EmulateSteps_glyphs rnds _ s' (show STACK_BUFFER < 65536 by decide) hsteps hno a ha]
  show (if PROGRAM_BUFFER ≤ a ∧ a < PROGRAM_BUFFER + image.length then _ else InitChip8.memory a) = _
  rw [if_neg (by simp only [PROGRAM_BUFFER]; omega)]

/-- Instance of amended C22: the three steps of `60 0A 61 05 80 14`, at the
first and the last byte of the table. -/
theorem glyphs_kept_witness :
    (runFrom [0, 0, 0] addProgram).memory 0x00 = InitChip8.memory 0x00 ∧
    (runFrom [0, 0, 0] addProgram).memory 0x4F = InitChip8.memory 0x4F :=
  ⟨glyphs_kept [0x60, 0x0A, 0x61, 0x05, 0x80, 0x14] [0, 0, 0] (runFrom [0, 0, 0] addProgram)
      rfl (by decide) 0x00 (by decide),
   glyphs_kept [0x60, 0x0A, 0x61, 0x05, 0x80, 0x14] [0, 0, 0] (runFrom [0, 0, 0] addProgram)
      rfl (by decide) 0x4F (by decide)⟩

/-- C23: the code at the failing input.  The last row of the glyph for digit
9, `memory[5 * 9 + 4]`, is `0x10` where the standard font has `0xF0`; the other
79 bytes of the table are those of the standard font. -/
theorem glyph_nine_last_row :
    InitChip8.memory (5 * 9 + 4) = 0x10 ∧ standardFont.getD (5 * 9 + 4) 0 = 0xF0 ∧
    ∀ a, a < 0x50 → a ≠ 5 * 9 + 4 → InitChip8.memory a = standardFont.getD a 0 := by
  refine ⟨by decide, by decide, ?_⟩
  decide

end Chip8
